import Mathlib

/-!
Verification development for `s3-site-cache-optimizer`
(`src/s3_site_cache_optimizer/optimize.py`).

The program content-addresses static-site assets, rewrites textual
references to them, stages the result into an output tree and
synchronizes that tree against an S3 bucket.

Shallow embedding conventions:
* file names, path fragments, URLs and file contents are `List Char`
  (Python `str` of the Python 2 code base);
* the Python standard-library helpers the code calls (`os.path.join`,
  `os.path.splitext`, `os.path.normpath`, `os.path.dirname`,
  `os.path.basename`, `fnmatch.fnmatch`, `urlparse.urlparse`,
  `urlparse.urljoin`) are modelled here faithfully to their CPython 2.7
  sources, restricted to POSIX separators (`sep = '/'`);
* the sha256 content hash is kept abstract: theorems quantify over an
  arbitrary fingerprint function `H : List Char → List Char`, mirroring
  `calculate_fingerprint`, which streams a file and returns
  `sha256(...).hexdigest()`;
* side-effecting phases (`_write_files`, `_upload_to_bucket`, `run`) are
  modelled as pure functions returning explicit event/write traces.
-/

/-! ## Generic list helpers -/

/-- Split a character list at the first occurrence of `sep`:
`some (before, after)` when present, `none` otherwise.  Models Python
`str.find` / `str.split(sep, 1)`. -/
def splitFirst (sep : Char) : List Char → Option (List Char × List Char)
  | [] => none
  | c :: cs =>
    if c = sep then some ([], cs)
    else (splitFirst sep cs).map (fun p => (c :: p.1, p.2))

/-- Split on every occurrence of `sep`; models Python `str.split(sep)`.
Always returns a non-empty list of components. -/
def splitOnChar (sep : Char) : List Char → List (List Char)
  | [] => [[]]
  | c :: cs =>
    match splitOnChar sep cs with
    | [] => [[]]
    | h :: t => if c = sep then [] :: h :: t else (c :: h) :: t

/-- Join components with `sep`; models Python `sep.join(...)`. -/
def joinChar (sep : Char) : List (List Char) → List Char
  | [] => []
  | [x] => x
  | x :: xs => x ++ sep :: joinChar sep xs

theorem splitFirst_eq {sep : Char} :
    ∀ {l a b : List Char}, splitFirst sep l = some (a, b) →
      l = a ++ sep :: b ∧ sep ∉ a := by
  intro l
  induction l with
  | nil => intro a b h; simp [splitFirst] at h
  | cons c cs ih =>
    intro a b h
    by_cases hc : c = sep
    · rw [splitFirst, if_pos hc] at h
      have h2 := Prod.ext_iff.mp (Option.some.inj h)
      have ha : a = [] := h2.1.symm
      have hb : b = cs := h2.2.symm
      subst ha; subst hb; subst hc; simp
    · rw [splitFirst, if_neg hc] at h
      cases hs : splitFirst sep cs with
      | none => rw [hs] at h; simp at h
      | some p =>
        rw [hs] at h
        simp only [Option.map_some'] at h
        have h2 := Prod.ext_iff.mp (Option.some.inj h)
        have ha : a = c :: p.1 := h2.1.symm
        have hb : b = p.2 := h2.2.symm
        obtain ⟨hl, hnot⟩ := ih (a := p.1) (b := p.2) (by rw [hs])
        subst ha; subst hb
        constructor
        · simp [hl]
        · intro hm
          cases List.mem_cons.mp hm with
          | inl he => exact hc he.symm
          | inr hm' => exact hnot hm'

theorem splitFirst_none {sep : Char} :
    ∀ {l : List Char}, splitFirst sep l = none → sep ∉ l := by
  intro l
  induction l with
  | nil => intro _; simp
  | cons c cs ih =>
    intro h
    by_cases hc : c = sep
    · rw [splitFirst, if_pos hc] at h; simp at h
    · rw [splitFirst, if_neg hc] at h
      cases hs : splitFirst sep cs with
      | none =>
        intro hm
        cases List.mem_cons.mp hm with
        | inl he => exact hc he.symm
        | inr hm' => exact (ih hs) hm'
      | some p => rw [hs] at h; simp at h

theorem splitOnChar_ne_nil (sep : Char) : ∀ l : List Char, splitOnChar sep l ≠ [] := by
  intro l
  induction l with
  | nil => simp [splitOnChar]
  | cons c cs ih =>
    simp only [splitOnChar]
    cases h : splitOnChar sep cs with
    | nil => exact absurd h ih
    | cons a b =>
      by_cases hc : c = sep <;> simp [hc]

theorem joinChar_splitOnChar (sep : Char) : ∀ l : List Char, joinChar sep (splitOnChar sep l) = l := by
  intro l
  induction l with
  | nil => rfl
  | cons c cs ih =>
    simp only [splitOnChar]
    cases h : splitOnChar sep cs with
    | nil => exact absurd h (splitOnChar_ne_nil sep cs)
    | cons a b =>
      rw [h] at ih
      by_cases hc : c = sep
      · subst hc
        simp only [if_pos rfl]
        cases b with
        | nil => simp [joinChar] at ih ⊢; exact ih
        | cons x xs => simp [joinChar] at ih ⊢; exact ih
      · simp only [if_neg hc]
        cases b with
        | nil => simp [joinChar] at ih ⊢; exact ih
        | cons x xs => simp [joinChar] at ih ⊢; exact ih

/-- Splitting at an explicit separator occurrence concatenates the
component lists of both sides. -/
theorem splitOnChar_append (sep : Char) :
    ∀ (u v : List Char), splitOnChar sep (u ++ sep :: v) = splitOnChar sep u ++ splitOnChar sep v := by
  intro u v
  induction u with
  | nil =>
    simp only [List.nil_append, splitOnChar]
    cases h : splitOnChar sep v with
    | nil => exact absurd h (splitOnChar_ne_nil sep v)
    | cons a b => simp
  | cons c cs ih =>
    simp only [List.cons_append, splitOnChar, List.append_eq]
    rw [ih]
    cases h : splitOnChar sep cs with
    | nil => exact absurd h (splitOnChar_ne_nil sep cs)
    | cons a b =>
      by_cases hc : c = sep <;> simp [hc]

/-- A separator-free list is a single component. -/
theorem splitOnChar_no_sep (sep : Char) :
    ∀ {l : List Char}, sep ∉ l → splitOnChar sep l = [l] := by
  intro l
  induction l with
  | nil => intro _; rfl
  | cons c cs ih =>
    intro h
    have hc : c ≠ sep := fun he => h (he ▸ List.mem_cons_self c cs)
    have hcs : sep ∉ cs := fun hm => h (List.mem_cons_of_mem c hm)
    simp only [splitOnChar, ih hcs]
    simp [fun he : c = sep => hc he]

/-! ## POSIX path helpers used by `optimize.py`

Models of `os.path.basename`, `os.path.dirname`, `os.path.splitext`,
`os.path.join`, `os.path.normpath` and `str.lstrip('/')` from the
CPython 2.7 `posixpath` module, on `List Char`. -/

/-- `os.path.basename`: the part after the last `'/'` (the whole string
when there is no slash). -/
def basename (p : List Char) : List Char :=
  (p.reverse.takeWhile (fun c => c != '/')).reverse

/-- `p[:p.rfind('/') + 1]`: the prefix up to and including the last
slash (empty when there is no slash).  This is the `head` computed by
`posixpath.dirname` and `posixpath.split`. -/
def headPart (p : List Char) : List Char :=
  (p.reverse.dropWhile (fun c => c != '/')).reverse

/-- `str.rstrip('/')`. -/
def rstripSlash (p : List Char) : List Char :=
  (p.reverse.dropWhile (fun c => c == '/')).reverse

/-- `str.lstrip('/')`, as applied to normalized urls in `_rewrite_file`. -/
def lstripSlashes (p : List Char) : List Char :=
  p.dropWhile (fun c => c == '/')

/-- `os.path.dirname`: prefix up to the last slash, with trailing
slashes stripped unless the prefix consists only of slashes. -/
def dirname (p : List Char) : List Char :=
  let head := headPart p
  if head ≠ [] ∧ head.any (fun c => c != '/') then rstripSlash head else head

/-- Split a name at its last dot: `some (before, after)` where
`before ++ '.' :: after` is the input and `after` is dot-free. -/
def splitLastDot : List Char → Option (List Char × List Char)
  | [] => none
  | c :: cs =>
    match splitLastDot cs with
    | some p => some (c :: p.1, p.2)
    | none => if c = '.' then some ([], cs) else none

/-- `os.path.splitext`: split off the extension at the last dot of the
basename, unless every character of the basename before that dot is
itself a dot (so `.bashrc` has no extension). -/
def splitext (p : List Char) : List Char × List Char :=
  match splitLastDot (basename p) with
  | none => (p, [])
  | some (x, y) =>
    if x.any (fun c => c != '.') then (p.take (p.length - (y.length + 1)), '.' :: y)
    else (p, [])

/-- `convert_filename` from `optimize.py`: insert the file hash before
the extension, `ftup[0] + '.' + filehash + ftup[1]`. -/
def convert_filename (filename filehash : List Char) : List Char :=
  (splitext filename).1 ++ '.' :: (filehash ++ (splitext filename).2)

/-- Two-argument `os.path.join` (the only form `optimize.py` uses). -/
def pjoin (a b : List Char) : List Char :=
  if b.take 1 = ['/'] then b
  else if a = [] ∨ a.getLast? = some '/' then a ++ b
  else a ++ '/' :: b

/-- One step of `posixpath.normpath`'s component loop: skip empty and
`'.'` components, append ordinary components, and let `'..'` pop the
previous component unless at an unanchored start or after another
`'..'`. -/
def normStep (hasInitSlash : Bool) (acc : List (List Char)) (comp : List Char) : List (List Char) :=
  if comp = [] ∨ comp = ['.'] then acc
  else if comp ≠ ['.', '.'] ∨ (hasInitSlash = false ∧ acc = []) ∨ acc.getLast? = some ['.', '.'] then
    acc ++ [comp]
  else if acc ≠ [] then acc.dropLast
  else acc

/-- `posixpath.normpath`. -/
def normpath (p : List Char) : List Char :=
  if p = [] then ['.']
  else
    let islashes : Nat :=
      if p.take 1 = ['/'] then (if p.take 2 = ['/', '/'] ∧ p.take 3 ≠ ['/', '/', '/'] then 2 else 1)
      else 0
    let comps := splitOnChar '/' p
    let newComps := comps.foldl (normStep (islashes ≠ 0)) []
    let res := List.replicate islashes '/' ++ joinChar '/' newComps
    if res = [] then ['.'] else res

theorem headPart_append_basename (p : List Char) : headPart p ++ basename p = p := by
  unfold headPart basename
  rw [← List.reverse_append, List.takeWhile_append_dropWhile, List.reverse_reverse]

theorem slash_not_mem_basename (p : List Char) : '/' ∉ basename p := by
  unfold basename
  intro h
  have h2 := List.mem_reverse.mp h
  have h3 := List.mem_takeWhile_imp h2
  simp at h3

theorem splitLastDot_none : ∀ {l : List Char}, splitLastDot l = none → '.' ∉ l := by
  intro l
  induction l with
  | nil => intro _; simp
  | cons c cs ih =>
    intro h
    rw [splitLastDot] at h
    cases hs : splitLastDot cs with
    | some p => rw [hs] at h; simp at h
    | none =>
      rw [hs] at h
      by_cases hc : c = '.'
      · rw [if_pos hc] at h; simp at h
      · intro hm
        cases List.mem_cons.mp hm with
        | inl he => exact hc he.symm
        | inr hm' => exact ih hs hm'

theorem splitLastDot_eq :
    ∀ {b x y : List Char}, splitLastDot b = some (x, y) →
      b = x ++ '.' :: y ∧ '.' ∉ y := by
  intro b
  induction b with
  | nil => intro x y h; simp [splitLastDot] at h
  | cons c cs ih =>
    intro x y h
    rw [splitLastDot] at h
    cases hs : splitLastDot cs with
    | some p =>
      rw [hs] at h
      have h2 := Prod.ext_iff.mp (Option.some.inj h)
      have hx : x = c :: p.1 := h2.1.symm
      have hy : y = p.2 := h2.2.symm
      obtain ⟨hl, hnot⟩ := ih (x := p.1) (y := p.2) (by rw [hs])
      subst hx; subst hy
      exact ⟨by simp [hl], hnot⟩
    | none =>
      rw [hs] at h
      by_cases hc : c = '.'
      · rw [if_pos hc] at h
        have h2 := Prod.ext_iff.mp (Option.some.inj h)
        have hx : x = [] := h2.1.symm
        have hy : y = cs := h2.2.symm
        subst hx; subst hy; subst hc
        exact ⟨by simp, splitLastDot_none hs⟩
      · rw [if_neg hc] at h; simp at h

theorem splitext_append (p : List Char) : (splitext p).1 ++ (splitext p).2 = p := by
  unfold splitext
  cases hs : splitLastDot (basename p) with
  | none => simp
  | some xy =>
    obtain ⟨x, y⟩ := xy
    by_cases hx : x.any (fun c => c != '.')
    · simp only [hx, if_pos]
      obtain ⟨hb, _⟩ := splitLastDot_eq hs
      set u := headPart p ++ x with hu
      have hp : p = u ++ '.' :: y := by
        conv_lhs => rw [← headPart_append_basename p]
        rw [hb, hu, List.append_assoc]
      have hlen : p.length - (y.length + 1) = u.length := by
        rw [hp]; simp [List.length_append]
      rw [hlen, hp, List.take_left]
    · simp [hx]

theorem splitext_no_ext {p : List Char} (h : (splitext p).2 = []) : (splitext p).1 = p := by
  unfold splitext at h ⊢
  cases hs : splitLastDot (basename p) with
  | none => simp
  | some xy =>
    obtain ⟨x, y⟩ := xy
    by_cases hx : x.any (fun c => c != '.')
    · rw [hs] at h; simp [hx] at h
    · simp [hs, hx]

/-- C7: `convert_filename` inserts the hash as an additional dot-segment
immediately before the final extension (`a/b.css` with hash `h` gives
`a/b.h.css`); when the path has no extension the hash is appended as a
final dot-segment.  The function is pure (a Lean `def`), so identical
inputs give identical addressed names. -/
theorem c7_addressed_name (p h : List Char) :
    convert_filename p h = (splitext p).1 ++ '.' :: (h ++ (splitext p).2) ∧
    (splitext p).1 ++ (splitext p).2 = p ∧
    ((splitext p).2 = [] → convert_filename p h = p ++ '.' :: h) ∧
    convert_filename ("a/b.css".toList) ("h".toList) = ("a/b.h.css".toList) := by
  refine ⟨rfl, splitext_append p, ?_, by decide⟩
  intro hext
  rw [convert_filename, splitext_no_ext hext, hext]
  simp

theorem c7_addressed_name_witness :
    convert_filename ("README".toList) ("h".toList) = ("README.h".toList) :=
  (c7_addressed_name ("README".toList) ("h".toList)).2.2.1 (by decide)

/-! ## `fnmatch.fnmatch` glob matching

`_index_source_dir` evaluates `fnmatch(relpath, exclude)` for every
exclusion pattern.  CPython's `fnmatch.translate` compiles the pattern
(`*` → `.*`, `?` → `.`, `[...]` → a regex character class, anything
else a literal) and matches the whole name anchored on both ends; on
POSIX `os.path.normcase` is the identity.  The model compiles to a
token list and matches it; a `*` token matches an arbitrary suffix. -/

/-- One element of a `[...]` character class: a literal or a range. -/
inductive ClsItem where
  | lit (c : Char)
  | range (a b : Char)
deriving DecidableEq

/-- A compiled glob-pattern token. -/
inductive PatTok where
  | star
  | anyChar
  | lit (c : Char)
  | cls (neg : Bool) (items : List ClsItem)
deriving DecidableEq

/-- Parse the inside of a character class into literals and ranges
(`a-b`); a `-` at the start or end stays literal, as in a regex class. -/
def classItems : List Char → List ClsItem
  | a :: '-' :: b :: rest => ClsItem.range a b :: classItems rest
  | a :: rest => ClsItem.lit a :: classItems rest
  | [] => []

def clsItemMatch (c : Char) : ClsItem → Bool
  | ClsItem.lit d => c == d
  | ClsItem.range a b => decide (a ≤ c ∧ c ≤ b)

def matchCls (neg : Bool) (items : List ClsItem) (c : Char) : Bool :=
  if neg then !(items.any (clsItemMatch c)) else items.any (clsItemMatch c)

/-- The `j` scan of `fnmatch.translate` after a `[`: an initial `!` and
an immediately following `]` are part of the class body; the body then
extends to the next `]`. -/
def scanSkip (p : List Char) : List Char × List Char :=
  match p with
  | '!' :: ']' :: r => (['!', ']'], r)
  | '!' :: r => (['!'], r)
  | ']' :: r => ([']'], r)
  | r => ([], r)

/-- Scan a class body after `[`: `some (body, rest)` when a closing `]`
exists, `none` when it does not (then `[` is a literal). -/
def scanClass (p : List Char) : Option (List Char × List Char) :=
  match splitFirst ']' (scanSkip p).2 with
  | some q => some ((scanSkip p).1 ++ q.1, q.2)
  | none => none

/-- Interpret a class body: a leading `!` negates the class. -/
def parseCls (stuff : List Char) : Bool × List ClsItem :=
  match stuff with
  | '!' :: rest => (true, classItems rest)
  | _ => (false, classItems stuff)

/-- Fueled compiler for glob patterns.  Every step consumes at least one
pattern character, so fuel equal to the pattern length always
suffices; the fuel only makes the recursion structural. -/
def compilePatF : Nat → List Char → List PatTok
  | 0, _ => []
  | _ + 1, [] => []
  | fuel + 1, '*' :: rest => PatTok.star :: compilePatF fuel rest
  | fuel + 1, '?' :: rest => PatTok.anyChar :: compilePatF fuel rest
  | fuel + 1, '[' :: rest =>
    match scanClass rest with
    | some q => PatTok.cls (parseCls q.1).1 (parseCls q.1).2 :: compilePatF fuel q.2
    | none => PatTok.lit '[' :: compilePatF fuel rest
  | fuel + 1, c :: rest => PatTok.lit c :: compilePatF fuel rest

def compilePat (p : List Char) : List PatTok := compilePatF p.length p

/-- Anchored matching of a compiled pattern: `star` matches an arbitrary
suffix of the name (the `.*` of `fnmatch.translate`). -/
def patMatch : List PatTok → List Char → Bool
  | [], s => s.isEmpty
  | PatTok.star :: ps, s => s.tails.any (fun t => patMatch ps t)
  | PatTok.anyChar :: ps, s =>
    match s with
    | [] => false
    | _ :: s2 => patMatch ps s2
  | PatTok.lit d :: ps, s =>
    match s with
    | [] => false
    | c :: s2 => c == d && patMatch ps s2
  | PatTok.cls n its :: ps, s =>
    match s with
    | [] => false
    | c :: s2 => matchCls n its c && patMatch ps s2

/-- `fnmatch.fnmatch(name, pat)` on POSIX. -/
def fnmatchPure (name pat : List Char) : Bool :=
  patMatch (compilePat pat) name

/-! ## Source tree walk and `_index_source_dir` -/

mutual
/-- A source-tree entry: a plain file or a directory with children. -/
inductive FSEntry where
  | file (name : List Char)
  | dir (name : List Char) (children : FSList)
/-- A list of source-tree entries (mutual with `FSEntry` so that the
tree walk is structurally recursive). -/
inductive FSList where
  | nil
  | cons (e : FSEntry) (rest : FSList)
end

def dirNamesL : FSList → List (List Char)
  | FSList.nil => []
  | FSList.cons (FSEntry.file _) rest => dirNamesL rest
  | FSList.cons (FSEntry.dir n _) rest => n :: dirNamesL rest

def fileNamesL : FSList → List (List Char)
  | FSList.nil => []
  | FSList.cons (FSEntry.file n) rest => n :: fileNamesL rest
  | FSList.cons (FSEntry.dir _ _) rest => fileNamesL rest

/-- The subtree part of `os.walk` (top-down): for every directory entry,
yield `(relpath, dirnames, filenames)` and then its subtree, in
order.  `rel` is the directory path relative to the source root, so
`os.path.relpath(os.path.join(dirpath, name), source_dir)` is
`pjoin rel name`. -/
def walkList (rel : List Char) : FSList → List (List Char × List (List Char) × List (List Char))
  | FSList.nil => []
  | FSList.cons (FSEntry.file _) rest => walkList rel rest
  | FSList.cons (FSEntry.dir n cs) rest =>
    ((pjoin rel n, dirNamesL cs, fileNamesL cs) :: walkList (pjoin rel n) cs) ++ walkList rel rest

/-- `os.walk(source_dir)`: the root's own triple followed by the
subtree triples. -/
def walkFrom (rel : List Char) (cs : FSList) : List (List Char × List (List Char) × List (List Char)) :=
  (rel, dirNamesL cs, fileNamesL cs) :: walkList rel cs

/-- `self._assets_ext` from `Optimizer.__init__`. -/
def assets_ext : List (List Char) :=
  [".css", ".svg", ".ttf", ".woff", ".woff2", ".otf", ".eot", ".png",
   ".jpg", ".jpeg", ".gif", ".js", ".mp4", ".webm", ".webp"].map String.toList

/-- `self._rewriteables_ext` from `Optimizer.__init__`. -/
def rewriteables_ext : List (List Char) :=
  [".html", ".htm", ".js", ".css", ".xml", ".json"].map String.toList

/-- `self._gzip_ext` from `Optimizer.__init__`. -/
def gzip_ext : List (List Char) :=
  [".html", ".htm", ".css", ".js", ".svg", ".xml", ".json"].map String.toList

/-- The `_subdirs`, `_files`, `_assets_map` keys and `_rewritables`
accumulated by `_index_source_dir` (an asset-map entry only stores the
basename, which is recomputable, so the key list suffices). -/
structure IndexResult where
  subdirs : List (List Char)
  files : List (List Char)
  assets : List (List Char)
  rewritables : List (List Char)
deriving DecidableEq

/-- The body of `_index_source_dir`'s walk loop for one
`(dirpath, dirnames, fnames)` triple: directories and files whose
relative path matches an exclusion pattern are skipped, files are
recorded and classified by the extension of the bare filename. -/
def indexStep (exclude : List (List Char)) (st : IndexResult)
    (w : List Char × List (List Char) × List (List Char)) : IndexResult :=
  let st1 := w.2.1.foldl (fun st d =>
    let rp := pjoin w.1 d
    if exclude.any (fun pat => fnmatchPure rp pat) then st
    else { st with subdirs := st.subdirs ++ [rp] }) st
  w.2.2.foldl (fun st f =>
    let rp := pjoin w.1 f
    if exclude.any (fun pat => fnmatchPure rp pat) then st
    else
      { st with
        files := st.files ++ [rp],
        assets := if (splitext f).2 ∈ assets_ext then st.assets ++ [rp] else st.assets,
        rewritables :=
          if (splitext f).2 ∈ rewriteables_ext then st.rewritables ++ [rp] else st.rewritables }) st1

/-- `_index_source_dir` over a modelled source tree. -/
def indexSourceDir (tree : FSList) (exclude : List (List Char)) : IndexResult :=
  (walkFrom [] tree).foldl (indexStep exclude) ⟨[], [], [], []⟩

/-- No supplied exclusion pattern matches `p` (the guard under which
`_index_source_dir` admits an entry). -/
def noExcludeMatch (exclude : List (List Char)) (p : List Char) : Prop :=
  exclude.any (fun pat => fnmatchPure p pat) = false

/-- All four indexed lists contain only paths no exclusion pattern
matches. -/
def indexClean (exclude : List (List Char)) (st : IndexResult) : Prop :=
  (∀ p ∈ st.subdirs, noExcludeMatch exclude p) ∧
  (∀ p ∈ st.files, noExcludeMatch exclude p) ∧
  (∀ p ∈ st.assets, noExcludeMatch exclude p) ∧
  (∀ p ∈ st.rewritables, noExcludeMatch exclude p)

theorem indexStep_clean (exclude : List (List Char))
    (w : List Char × List (List Char) × List (List Char)) :
    ∀ st : IndexResult, indexClean exclude st → indexClean exclude (indexStep exclude st w) := by
  unfold indexStep
  have hdirs : ∀ (dn : List (List Char)) (st : IndexResult), indexClean exclude st →
      indexClean exclude (dn.foldl (fun st d =>
        let rp := pjoin w.1 d
        if exclude.any (fun pat => fnmatchPure rp pat) then st
        else { st with subdirs := st.subdirs ++ [rp] }) st) := by
    intro dn
    induction dn with
    | nil => intro st h; exact h
    | cons d rest ih =>
      intro st h
      simp only [List.foldl_cons]
      apply ih
      by_cases hg : (exclude.any (fun pat => fnmatchPure (pjoin w.1 d) pat)) = true
      · simpa [hg] using h
      · obtain ⟨h1, h2, h3, h4⟩ := h
        simp only [hg]
        refine ⟨?_, h2, h3, h4⟩
        intro p hp
        cases List.mem_append.mp hp with
        | inl hold => exact h1 p hold
        | inr hnew =>
          have : p = pjoin w.1 d := List.mem_singleton.mp hnew
          subst this
          exact Bool.eq_false_iff.mpr hg
  have hfiles : ∀ (fn : List (List Char)) (st : IndexResult), indexClean exclude st →
      indexClean exclude (fn.foldl (fun st f =>
        let rp := pjoin w.1 f
        if exclude.any (fun pat => fnmatchPure rp pat) then st
        else
          { st with
            files := st.files ++ [rp],
            assets := if (splitext f).2 ∈ assets_ext then st.assets ++ [rp] else st.assets,
            rewritables :=
              if (splitext f).2 ∈ rewriteables_ext then st.rewritables ++ [rp] else st.rewritables }) st) := by
    intro fn
    induction fn with
    | nil => intro st h; exact h
    | cons f rest ih =>
      intro st h
      simp only [List.foldl_cons]
      apply ih
      by_cases hg : (exclude.any (fun pat => fnmatchPure (pjoin w.1 f) pat)) = true
      · simpa [hg] using h
      · obtain ⟨h1, h2, h3, h4⟩ := h
        have hno : noExcludeMatch exclude (pjoin w.1 f) := Bool.eq_false_iff.mpr hg
        simp only [hg]
        constructor
        · simpa using h1
        constructor
        · intro p hp
          cases List.mem_append.mp hp with
          | inl hold => exact h2 p hold
          | inr hnew => exact (List.mem_singleton.mp hnew) ▸ hno
        constructor
        · intro p hp
          by_cases he : (splitext f).2 ∈ assets_ext
          · rw [if_pos he] at hp
            cases List.mem_append.mp hp with
            | inl hold => exact h3 p hold
            | inr hnew => exact (List.mem_singleton.mp hnew) ▸ hno
          · rw [if_neg he] at hp
            exact h3 p hp
        · intro p hp
          by_cases he : (splitext f).2 ∈ rewriteables_ext
          · rw [if_pos he] at hp
            cases List.mem_append.mp hp with
            | inl hold => exact h4 p hold
            | inr hnew => exact (List.mem_singleton.mp hnew) ▸ hno
          · rw [if_neg he] at hp
            exact h4 p hp
  intro st h
  exact hfiles w.2.2 _ (hdirs w.2.1 st h)

theorem indexSourceDir_clean (tree : FSList) (exclude : List (List Char)) :
    indexClean exclude (indexSourceDir tree exclude) := by
  unfold indexSourceDir
  have main : ∀ (ws : List (List Char × List (List Char) × List (List Char))) (st : IndexResult),
      indexClean exclude st → indexClean exclude (ws.foldl (indexStep exclude) st) := by
    intro ws
    induction ws with
    | nil => intro st h; exact h
    | cons w rest ih =>
      intro st h
      simp only [List.foldl_cons]
      exact ih _ (indexStep_clean exclude w st h)
  apply main
  refine ⟨?_, ?_, ?_, ?_⟩ <;> intro p hp <;> simp at hp

/-- The source tree of the C5 counterexample: one directory `ex`
holding one file `kept.txt`. -/
def c5Tree : FSList :=
  FSList.cons
    (FSEntry.dir ("ex".toList) (FSList.cons (FSEntry.file ("kept.txt".toList)) FSList.nil))
    FSList.nil

/-- C5 counterexample: with exclusion pattern `ex`, the directory `ex`
itself is excluded from the indexed directory set, yet the file
`ex/kept.txt` underneath it — whose own relative path matches no
pattern — is still indexed.  `_index_source_dir` never prunes
`os.walk`'s `dirnames`, so excluded subtrees are descended into. -/
theorem c5_counterexample :
    fnmatchPure ("ex".toList) ("ex".toList) = true ∧
    ("ex".toList) ∉ (indexSourceDir c5Tree [("ex".toList)]).subdirs ∧
    ("ex/kept.txt".toList) = pjoin ("ex".toList) ("kept.txt".toList) ∧
    fnmatchPure ("ex/kept.txt".toList) ("ex".toList) = false ∧
    ("ex/kept.txt".toList) ∈ (indexSourceDir c5Tree [("ex".toList)]).files := by
  decide

/-- C5 (amended): every relative path matching a supplied exclusion
pattern is absent from the indexed directory/file/asset/rewritable
sets; however an excluded directory's subtree is *not* pruned — an
entry underneath an excluded directory is still indexed unless its own
relative path matches one of the patterns. -/
theorem c5_exclusion_amended (tree : FSList) (exclude : List (List Char)) (p pat : List Char)
    (hpat : pat ∈ exclude)
    (hp : p ∈ (indexSourceDir tree exclude).subdirs ∨ p ∈ (indexSourceDir tree exclude).files ∨
      p ∈ (indexSourceDir tree exclude).assets ∨ p ∈ (indexSourceDir tree exclude).rewritables) :
    fnmatchPure p pat = false := by
  obtain ⟨h1, h2, h3, h4⟩ := indexSourceDir_clean tree exclude
  have hno : noExcludeMatch exclude p := by
    cases hp with
    | inl h => exact h1 p h
    | inr h =>
      cases h with
      | inl h => exact h2 p h
      | inr h =>
        cases h with
        | inl h => exact h3 p h
        | inr h => exact h4 p h
  have := List.any_eq_false.mp hno
  have hp2 := this pat hpat
  exact Bool.eq_false_iff.mpr hp2

theorem c5_exclusion_amended_witness :
    ("ex".toList) ∈ [("ex".toList)] ∧
    ("ex/kept.txt".toList) ∈ (indexSourceDir c5Tree [("ex".toList)]).files ∧
    fnmatchPure ("ex/kept.txt".toList) ("ex".toList) = false :=
  ⟨by decide, by decide,
    c5_exclusion_amended c5Tree [("ex".toList)] ("ex/kept.txt".toList) ("ex".toList)
      (by decide) (Or.inr (Or.inl (by decide)))⟩

/-! ## `urlparse` / `urljoin`

Models of the CPython 2.7 `urlparse` module as used by
`_rewrite_file`: `urlparse(url)` (scheme, netloc, path, params, query,
fragment) and `urljoin(base, url)`.  The IPv6 bracket validation of
`_splitnetloc` (which raises `ValueError`) is not modelled; no claim
depends on malformed bracketed netlocs. -/

/-- The parse result (`ParseResult` of `urlparse`). -/
structure UrlParts where
  scheme : List Char
  netloc : List Char
  path : List Char
  params : List Char
  query : List Char
  fragment : List Char
deriving DecidableEq

/-- `scheme_chars` of `urlparse`: letters, digits and `+-.`. -/
def isSchemeChar (c : Char) : Bool :=
  decide (('a' ≤ c ∧ c ≤ 'z') ∨ ('A' ≤ c ∧ c ≤ 'Z') ∨ ('0' ≤ c ∧ c ≤ '9')) ||
    c == '+' || c == '-' || c == '.'

/-- ASCII `str.lower` on one character, as applied to a url scheme. -/
def schemeLower (c : Char) : Char :=
  if 'A' ≤ c ∧ c ≤ 'Z' then Char.ofNat (c.toNat + 32) else c

/-- `uses_relative` of CPython 2.7 `urlparse`. -/
def uses_relative : List (List Char) :=
  ["ftp", "http", "gopher", "nntp", "imap", "wais", "file", "https", "shttp",
   "mms", "prospero", "rtsp", "rtspu", "", "sftp", "svn", "svn+ssh"].map String.toList

/-- `uses_netloc` of CPython 2.7 `urlparse`. -/
def uses_netloc : List (List Char) :=
  ["ftp", "http", "gopher", "nntp", "telnet", "imap", "wais", "file", "mms",
   "https", "shttp", "snews", "prospero", "rtsp", "rtspu", "rsync", "",
   "svn", "svn+ssh", "sftp", "nfs", "git", "git+ssh"].map String.toList

/-- `uses_params` of CPython 2.7 `urlparse`. -/
def uses_params : List (List Char) :=
  ["ftp", "hdl", "prospero", "http", "imap", "https", "shttp", "rtsp",
   "rtspu", "sip", "sips", "mms", "", "sftp", "tel"].map String.toList

/-- The scheme detection of `urlsplit`: a scheme prefix before the
first `':'` is accepted when it is non-empty, made of scheme
characters, and the remainder is not a bare port number; otherwise the
default scheme is kept and the url is unchanged. -/
def schemeSplit (url0 defScheme : List Char) : List Char × List Char :=
  match splitFirst ':' url0 with
  | some q =>
    if q.1 ≠ [] ∧ q.1.all isSchemeChar ∧ (q.2 = [] ∨ ¬ q.2.all Char.isDigit) then
      (q.1.map schemeLower, q.2)
    else (defScheme, url0)
  | none => (defScheme, url0)

/-- `_splitnetloc` guarded by the `'//'` check: the netloc extends to
the next `/`, `?` or `#`. -/
def netlocSplit (u : List Char) : List Char × List Char :=
  if u.take 2 = ['/', '/'] then
    ((u.drop 2).takeWhile (fun c => !(c == '/' || c == '?' || c == '#')),
     (u.drop 2).dropWhile (fun c => !(c == '/' || c == '?' || c == '#')))
  else ([], u)

/-- Split at the first `'#'` (fragment). -/
def fragSplit (u : List Char) : List Char × List Char :=
  match splitFirst '#' u with
  | some q => (q.1, q.2)
  | none => (u, [])

/-- Split at the first `'?'` (query). -/
def querySplit (u : List Char) : List Char × List Char :=
  match splitFirst '?' u with
  | some q => (q.1, q.2)
  | none => (u, [])

/-- `urlsplit(url, scheme=defScheme)`: scheme, then `//netloc`, then
fragment, then query. -/
def urlsplitModel (url0 defScheme : List Char) : UrlParts :=
  let sp := schemeSplit url0 defScheme
  let nl := netlocSplit sp.2
  let fr := fragSplit nl.2
  let qu := querySplit fr.1
  ⟨sp.1, nl.1, qu.1, [], qu.2, fr.2⟩

/-- `_splitparams`: split the params off the last path segment at its
first `';'`. -/
def splitParamsModel (p : List Char) : List Char × List Char :=
  if '/' ∈ p then
    match splitFirst ';' (basename p) with
    | some q => (headPart p ++ q.1, q.2)
    | none => (p, [])
  else
    match splitFirst ';' p with
    | some q => (q.1, q.2)
    | none => (p, [])

/-- `urlparse(url, scheme=defScheme)`: `urlsplit` plus the params split
when the scheme uses params and the path contains `';'`. -/
def urlparseDef (url defScheme : List Char) : UrlParts :=
  let r := urlsplitModel url defScheme
  if r.scheme ∈ uses_params ∧ ';' ∈ r.path then
    let q := splitParamsModel r.path
    ⟨r.scheme, r.netloc, q.1, q.2, r.query, r.fragment⟩
  else r

/-- `urlparse(url)` as called in `_rewrite_file`. -/
def urlparseModel (url : List Char) : UrlParts := urlparseDef url []

/-- `urlunsplit((scheme, netloc, url, query, fragment))`. -/
def urlunsplitModel (scheme netloc url0 query fragment : List Char) : List Char :=
  let url1 :=
    if netloc ≠ [] ∨ (url0 ≠ [] ∧ url0.take 2 = ['/', '/']) then
      ('/' :: '/' :: netloc) ++ (if url0 ≠ [] ∧ url0.take 1 ≠ ['/'] then '/' :: url0 else url0)
    else url0
  let url2 := if scheme ≠ [] then scheme ++ ':' :: url1 else url1
  let url3 := if query ≠ [] then url2 ++ '?' :: query else url2
  if fragment ≠ [] then url3 ++ '#' :: fragment else url3

/-- `urlunparse`: re-attach params to the path, then `urlunsplit`. -/
def urlunparseModel (u : UrlParts) : List Char :=
  urlunsplitModel u.scheme u.netloc
    (if u.params ≠ [] then u.path ++ ';' :: u.params else u.path) u.query u.fragment

/-- The inner scan of `urljoin`'s segment merge: delete the first
`segments[i-1:i+1]` with `segments[i] == '..'`, `segments[i-1]` not
`''`/`'..'` and `i < len(segments) - 1`. -/
def delDotDot : List (List Char) → Option (List (List Char))
  | a :: b :: rest =>
    if rest ≠ [] ∧ b = ['.', '.'] ∧ a ≠ [] ∧ a ≠ ['.', '.'] then some rest
    else
      match delDotDot (b :: rest) with
      | some r => some (a :: r)
      | none => none
  | _ => none

/-- `urljoin`'s `while 1` merge loop; each round deletes two segments,
so fuel equal to the segment count always suffices. -/
def mergeLoop : Nat → List (List Char) → List (List Char)
  | 0, segs => segs
  | n + 1, segs =>
    match delDotDot segs with
    | some segs2 => mergeLoop n segs2
    | none => segs

/-- `urljoin(base, url)` of CPython 2.7 `urlparse`. -/
def urljoinModel (base url : List Char) : List Char :=
  if base = [] then url
  else if url = [] then base
  else
    let b := urlparseDef base []
    let u := urlparseDef url b.scheme
    if u.scheme ≠ b.scheme ∨ u.scheme ∉ uses_relative then url
    else if u.scheme ∈ uses_netloc ∧ u.netloc ≠ [] then urlunparseModel u
    else
      let nl := if u.scheme ∈ uses_netloc then b.netloc else u.netloc
      if u.path.take 1 = ['/'] then
        urlunparseModel ⟨u.scheme, nl, u.path, u.params, u.query, u.fragment⟩
      else if u.path = [] ∧ u.params = [] then
        urlunparseModel ⟨u.scheme, nl, b.path, b.params,
          (if u.query = [] then b.query else u.query), u.fragment⟩
      else
        let segs0 := (splitOnChar '/' b.path).dropLast ++ splitOnChar '/' u.path
        let segs1 := if segs0.getLast? = some ['.'] then segs0.dropLast ++ [[]] else segs0
        let segs2 := segs1.filter (fun s => s ≠ ['.'])
        let segs3 := mergeLoop segs2.length segs2
        let segs4 :=
          if segs3 = [[], ['.', '.']] then [[], []]
          else if 2 ≤ segs3.length ∧ segs3.getLast? = some ['.', '.'] then
            segs3.dropLast.dropLast ++ [[]]
          else segs3
        urlunparseModel ⟨u.scheme, nl, joinChar '/' segs4, u.params, u.query, u.fragment⟩

/-! ## `_rewrite_file`: processing one candidate reference token

`_rewrite_file` scans each line for maximal runs of URL-legal
characters containing a known asset basename, and processes each match
right-to-left.  The per-match loop body (lines 241–263 of
`optimize.py`) is modelled here as a function of the matched token. -/

/-- `os.path.normpath(os.path.join(src_reldirpath, parsed_url.path)).lstrip('/')`:
the normalized source-relative path a token resolves to. -/
def normalizedRelPath (srcRelDir urlPath : List Char) : List Char :=
  lstripSlashes (normpath (pjoin srcRelDir urlPath))

/-- One match of `_rewrite_file`'s inner loop, for the asset with
source-relative path `asset` and addressed name `nf`
(`assets_map[asset]['new_filename']`): `none` when the token is left
untouched (third-party host, or a path that does not resolve to this
asset); `some r` when the token is replaced by `r`. -/
def rewriteUrlToken (domains : List (List Char)) (srcRelDir asset nf url : List Char) :
    Option (List Char) :=
  let pu := urlparseModel url
  if pu.netloc ≠ [] ∧ pu.netloc ∉ domains then none
  else
    let normalized := normalizedRelPath srcRelDir pu.path
    if asset = normalized then
      let newPath := '/' :: pjoin (dirname normalized) (basename nf)
      some (if pu.netloc ≠ [] then urljoinModel url newPath else newPath)
    else none

/-- The token text after `_rewrite_file` has processed one match: the
replacement when a rewrite fires, the original token otherwise. -/
def processUrlToken (domains : List (List Char)) (srcRelDir asset nf url : List Char) : List Char :=
  (rewriteUrlToken domains srcRelDir asset nf url).getD url

/-- C3: a candidate reference token is replaced iff (a) it carries no
network authority or its authority is in the domain allow-list, and
(b) its path component, normalized against the referencing file's
directory, equals the asset's exact source-relative path; any other
token — a third-party host, or a basename-substring match resolving to
a different path — is byte-identical after processing. -/
theorem c3_rewrite_condition (domains : List (List Char)) (srcRelDir asset nf url : List Char) :
    ((rewriteUrlToken domains srcRelDir asset nf url).isSome = true ↔
      (((urlparseModel url).netloc = [] ∨ (urlparseModel url).netloc ∈ domains) ∧
        asset = normalizedRelPath srcRelDir (urlparseModel url).path)) ∧
    (rewriteUrlToken domains srcRelDir asset nf url = none →
      processUrlToken domains srcRelDir asset nf url = url) := by
  constructor
  · unfold rewriteUrlToken
    by_cases h1 : (urlparseModel url).netloc ≠ [] ∧ (urlparseModel url).netloc ∉ domains
    · rw [if_pos h1]
      simp only [Option.isSome_none, Bool.false_eq_true, false_iff]
      intro hc
      cases hc.1 with
      | inl he => exact h1.1 he
      | inr hm => exact h1.2 hm
    · rw [if_neg h1]
      by_cases h2 : asset = normalizedRelPath srcRelDir (urlparseModel url).path
      · rw [if_pos h2]
        simp only [Option.isSome_some, true_iff]
        refine ⟨?_, h2⟩
        by_cases hn : (urlparseModel url).netloc = []
        · exact Or.inl hn
        · right
          by_contra hm
          exact h1 ⟨hn, hm⟩
      · rw [if_neg h2]
        simp only [Option.isSome_none, Bool.false_eq_true, false_iff]
        intro hc
        exact h2 hc.2
  · intro h
    unfold processUrlToken
    rw [h]
    rfl

theorem c3_rewrite_condition_witness :
    processUrlToken [("www.example.org".toList)] [] ("style.css".toList) ("style.h.css".toList)
        ("https://cdn.example.com/style.css".toList) =
      ("https://cdn.example.com/style.css".toList) :=
  (c3_rewrite_condition [("www.example.org".toList)] [] ("style.css".toList)
    ("style.h.css".toList) ("https://cdn.example.com/style.css".toList)).2 (by decide)

/-- C4 counterexample: the token `foo://site.com/style.css`, whose host
`site.com` is in the allow-list and whose path resolves to the asset
`style.css`, is rewritten — but `urljoin` drops the scheme and
authority because `foo` is not in `uses_relative`, so the replacement
is the bare root path `/style.h.css`: the absolute form of the
original reference is not preserved. -/
theorem c4_counterexample :
    rewriteUrlToken [("site.com".toList)] [] ("style.css".toList) ("style.h.css".toList)
        ("foo://site.com/style.css".toList) = some ("/style.h.css".toList) ∧
    (urlparseModel ("foo://site.com/style.css".toList)).netloc = ("site.com".toList) ∧
    (urlparseModel ("/style.h.css".toList)).netloc = [] := by
  decide

/-! ## Well-formed paths and fingerprints

`os.path.relpath` output for entries under the source root is non-empty,
has no leading/trailing/duplicate slashes and no `.`/`..` components;
mainstream file names and sha256 hex digests contain no url
metacharacters.  These shapes are captured by `cleanPath`/`cleanHash`
and assumed by the idempotence / form-preservation theorems. -/

/-- Characters that never occur in the modelled paths and fingerprints:
the url delimiters `:`, `?`, `#`, `;`. -/
def plainChar (c : Char) : Bool :=
  !(c == ':' || c == '?' || c == '#' || c == ';')

/-- A well-formed source-relative path. -/
def cleanPath (p : List Char) : Prop :=
  p ≠ [] ∧ (∀ c ∈ p, plainChar c = true) ∧
    ∀ comp ∈ splitOnChar '/' p, comp ≠ [] ∧ comp ≠ ['.'] ∧ comp ≠ ['.', '.']

/-- A well-formed fingerprint string (sha256 hex digests qualify). -/
def cleanHash (h : List Char) : Prop :=
  h ≠ [] ∧ ∀ c ∈ h, plainChar c = true ∧ c ≠ '/' ∧ c ≠ '.'

instance (p : List Char) : Decidable (cleanPath p) := by
  unfold cleanPath
  infer_instance

instance (h : List Char) : Decidable (cleanHash h) := by
  unfold cleanHash
  infer_instance

theorem takeWhile_append_all {p : Char → Bool} :
    ∀ {l1 l2 : List Char}, (∀ c ∈ l1, p c = true) →
      (l1 ++ l2).takeWhile p = l1 ++ l2.takeWhile p := by
  intro l1
  induction l1 with
  | nil => intro l2 _; simp
  | cons c cs ih =>
    intro l2 h
    have hc : p c = true := h c (List.mem_cons_self c cs)
    simp only [List.cons_append, List.takeWhile_cons, hc, if_true]
    rw [ih (fun x hx => h x (List.mem_cons_of_mem c hx))]

theorem dropWhile_append_all {p : Char → Bool} :
    ∀ {l1 l2 : List Char}, (∀ c ∈ l1, p c = true) →
      (l1 ++ l2).dropWhile p = l2.dropWhile p := by
  intro l1
  induction l1 with
  | nil => intro l2 _; simp
  | cons c cs ih =>
    intro l2 h
    have hc : p c = true := h c (List.mem_cons_self c cs)
    simp only [List.cons_append, List.dropWhile_cons, hc, if_true]
    exact ih (fun x hx => h x (List.mem_cons_of_mem c hx))

theorem takeWhile_cons_false {p : Char → Bool} {c : Char} (l : List Char) (h : p c = false) :
    (c :: l).takeWhile p = [] := by
  simp [List.takeWhile_cons, h]

theorem dropWhile_cons_false {p : Char → Bool} {c : Char} (l : List Char) (h : p c = false) :
    (c :: l).dropWhile p = c :: l := by
  simp [List.dropWhile_cons, h]

/-- A slash-free name is its own basename. -/
theorem basename_no_slash {v : List Char} (h : '/' ∉ v) : basename v = v := by
  unfold basename
  rw [List.takeWhile_eq_self_iff.mpr, List.reverse_reverse]
  intro c hc
  have : c ∈ v := List.mem_reverse.mp hc
  have : c ≠ '/' := fun he => h (he ▸ this)
  simpa using this

/-- Appending a slash-free name after a slash-terminated (or empty)
prefix leaves exactly that name as the basename. -/
theorem basename_append_right {u v : List Char}
    (hu : u = [] ∨ u.getLast? = some '/') (hv : '/' ∉ v) :
    basename (u ++ v) = v := by
  cases hu with
  | inl h => subst h; simpa using basename_no_slash hv
  | inr h =>
    unfold basename
    rw [List.reverse_append]
    have hall : ∀ c ∈ v.reverse, (fun c => c != '/') c = true := by
      intro c hc
      have : c ∈ v := List.mem_reverse.mp hc
      have : c ≠ '/' := fun he => hv (he ▸ this)
      simpa using this
    rw [takeWhile_append_all hall]
    have hhd : ∃ t, u.reverse = '/' :: t := by
      cases hu2 : u.reverse with
      | nil =>
        exfalso
        have : u = [] := by simpa using congrArg List.reverse hu2
        rw [this] at h
        simp at h
      | cons x t =>
        have hx : x = '/' := by
          have h3 : u.getLast? = some x := by
            rw [← List.head?_reverse, hu2]
            rfl
          rw [h3] at h
          exact Option.some.inj h
        exact ⟨t, by rw [hx]⟩
    obtain ⟨t, ht⟩ := hhd
    rw [ht, takeWhile_cons_false _ (by simp)]
    simp

/-- An empty `headPart` means the path has no slash at all. -/
theorem headPart_nil_no_slash {p : List Char} (h : headPart p = []) : '/' ∉ p := by
  unfold headPart at h
  have h2 : p.reverse.dropWhile (fun c => c != '/') = [] := by
    have := congrArg List.reverse h
    simpa using this
  intro hm
  have hm2 : '/' ∈ p.reverse := List.mem_reverse.mpr hm
  have := List.dropWhile_eq_nil_iff.mp h2
  have h3 := this '/' hm2
  simp at h3

theorem dropWhile_cons_prop {p : Char → Bool} :
    ∀ {l : List Char} {x : Char} {t : List Char}, l.dropWhile p = x :: t → p x = false := by
  intro l
  induction l with
  | nil => intro x t h; simp at h
  | cons c cs ih =>
    intro x t h
    by_cases hc : p c = true
    · rw [List.dropWhile_cons, if_pos hc] at h
      exact ih h
    · rw [List.dropWhile_cons, if_neg hc] at h
      have : c = x := (List.cons.inj h).1
      subst this
      exact Bool.eq_false_iff.mpr hc

/-- A non-empty `headPart` ends in a slash. -/
theorem headPart_last {p : List Char} (h : headPart p ≠ []) :
    ∃ w, headPart p = w ++ ['/'] := by
  cases hd : p.reverse.dropWhile (fun c => c != '/') with
  | nil => exfalso; apply h; unfold headPart; rw [hd]; rfl
  | cons x t =>
    have hx : (fun c : Char => c != '/') x = false :=
      dropWhile_cons_prop (p := fun c => c != '/') hd
    have hx2 : x = '/' := by simpa using hx
    refine ⟨t.reverse, ?_⟩
    unfold headPart
    rw [hd, hx2]
    simp

theorem clean_not_start_slash {p : List Char} (h : cleanPath p) : p.take 1 ≠ ['/'] := by
  cases p with
  | nil => simp
  | cons c cs =>
    intro ht
    have hc : c = '/' := by simpa using ht
    subst hc
    have hcomps : splitOnChar '/' ('/' :: cs) = [] :: splitOnChar '/' cs := by
      rw [splitOnChar]
      cases hs : splitOnChar '/' cs with
      | nil => exact absurd hs (splitOnChar_ne_nil '/' cs)
      | cons a b => simp
    have hmem : [] ∈ splitOnChar '/' ('/' :: cs) := by rw [hcomps]; exact List.mem_cons_self _ _
    exact (h.2.2 [] hmem).1 rfl

theorem basename_mem_comps (p : List Char) : basename p ∈ splitOnChar '/' p := by
  by_cases hhp : headPart p = []
  · have hns : '/' ∉ p := headPart_nil_no_slash hhp
    rw [splitOnChar_no_sep '/' hns, basename_no_slash hns]
    exact List.mem_singleton.mpr rfl
  · obtain ⟨w, hw⟩ := headPart_last hhp
    have ha : p = w ++ '/' :: basename p := by
      conv_lhs => rw [← headPart_append_basename p]
      rw [hw]
      simp
    have key : splitOnChar '/' p = splitOnChar '/' w ++ [basename p] := by
      conv_lhs => rw [ha]
      rw [splitOnChar_append, splitOnChar_no_sep '/' (slash_not_mem_basename p)]
    rw [key]
    exact List.mem_append_right _ (List.mem_singleton.mpr rfl)

theorem cleanPath_basename {p : List Char} (h : cleanPath p) :
    basename p ≠ [] ∧ basename p ≠ ['.'] ∧ basename p ≠ ['.', '.'] :=
  h.2.2 _ (basename_mem_comps p)

theorem rstripSlash_append_slash {w : List Char} (hlast : w.getLast? ≠ some '/') :
    rstripSlash (w ++ ['/']) = w := by
  unfold rstripSlash
  rw [List.reverse_append]
  simp only [List.reverse_cons, List.reverse_nil, List.nil_append, List.singleton_append]
  rw [List.dropWhile_cons]
  simp only [beq_self_eq_true, if_true]
  cases hw : w.reverse with
  | nil =>
    have : w = [] := by simpa using congrArg List.reverse hw
    simp [this]
  | cons x t =>
    have hx : x ≠ '/' := by
      intro he
      apply hlast
      rw [← List.head?_reverse, hw, he]
      rfl
    rw [dropWhile_cons_false _ (by simpa using hx), ← hw]
    simp

/-- Decomposition of a well-formed path at its last slash: either it
has no slash at all, or it splits as `dirname ++ '/' :: basename` with
a well-formed dirname. -/
theorem cleanPath_decomp {a : List Char} (h : cleanPath a) :
    (headPart a = [] ∧ dirname a = [] ∧ '/' ∉ a ∧ basename a = a) ∨
    (∃ w, headPart a = w ++ ['/'] ∧ dirname a = w ∧ w ≠ [] ∧ w.getLast? ≠ some '/' ∧
      w.take 1 ≠ ['/'] ∧ a = w ++ '/' :: basename a ∧
      (∀ comp ∈ splitOnChar '/' w, comp ≠ [] ∧ comp ≠ ['.'] ∧ comp ≠ ['.', '.'])) := by
  by_cases hhp : headPart a = []
  · left
    have hns : '/' ∉ a := headPart_nil_no_slash hhp
    refine ⟨hhp, ?_, hns, basename_no_slash hns⟩
    unfold dirname
    rw [hhp]
    simp
  · right
    obtain ⟨w, hw⟩ := headPart_last hhp
    have ha : a = w ++ '/' :: basename a := by
      conv_lhs => rw [← headPart_append_basename a]
      rw [hw]
      simp
    have hcomps : splitOnChar '/' a = splitOnChar '/' w ++ [basename a] := by
      conv_lhs => rw [ha]
      rw [splitOnChar_append, splitOnChar_no_sep '/' (slash_not_mem_basename a)]
    have hwcomps : ∀ comp ∈ splitOnChar '/' w, comp ≠ [] ∧ comp ≠ ['.'] ∧ comp ≠ ['.', '.'] := by
      intro comp hc
      exact h.2.2 comp (by rw [hcomps]; exact List.mem_append_left _ hc)
    have hwne : w ≠ [] := by
      intro he
      subst he
      have : a.take 1 = ['/'] := by rw [ha]; rfl
      exact clean_not_start_slash h this
    have hlast : w.getLast? ≠ some '/' := by
      intro he
      have hrev : ∃ t, w.reverse = '/' :: t := by
        cases hwr : w.reverse with
        | nil =>
          exfalso
          exact hwne (by simpa using congrArg List.reverse hwr)
        | cons x t =>
          have hx2 : w.getLast? = some x := by rw [← List.head?_reverse, hwr]; rfl
          rw [hx2] at he
          have hxx : x = '/' := Option.some.inj he
          exact ⟨t, by rw [hxx]⟩
      obtain ⟨t, ht⟩ := hrev
      have hw2 : w = t.reverse ++ ['/'] := by
        have := congrArg List.reverse ht
        simpa using this
      have ha2 : a = t.reverse ++ '/' :: ('/' :: basename a) := by
        conv_lhs => rw [ha, hw2]
        simp
      have : [] ∈ splitOnChar '/' a := by
        rw [ha2, splitOnChar_append]
        apply List.mem_append_right
        rw [splitOnChar]
        cases hs : splitOnChar '/' (basename a) with
        | nil => exact absurd hs (splitOnChar_ne_nil _ _)
        | cons x2 t2 => simp
      exact (h.2.2 [] this).1 rfl
    have hwtake : w.take 1 ≠ ['/'] := by
      cases hwc : w with
      | nil => exact absurd hwc hwne
      | cons c cs =>
        have hatake : a.take 1 = [c] := by rw [ha, hwc]; rfl
        intro he
        have : c = '/' := by simpa using he
        exact clean_not_start_slash h (by rw [hatake, this])
    have hdir : dirname a = w := by
      unfold dirname
      rw [hw]
      have hany : (w ++ ['/']).any (fun c => c != '/') = true := by
        cases hwc : w with
        | nil => exact absurd hwc hwne
        | cons c cs =>
          have hc : c ≠ '/' := by
            intro he
            exact hwtake (by rw [hwc, he]; rfl)
          apply List.any_eq_true.mpr
          exact ⟨c, by simp [hwc], by simpa using hc⟩
      rw [if_pos ⟨by simp, hany⟩]
      exact rstripSlash_append_slash hlast
    exact ⟨w, hw, hdir, hwne, hlast, hwtake, ha, hwcomps⟩

theorem toNat_ofNat_valid (n : Nat) (h : n.isValidChar) : (Char.ofNat n).toNat = n := by
  rw [Char.ofNat, dif_pos h]
  simp [Char.ofNatAux, Char.toNat]
  rfl

theorem schemeLower_not_upper {c : Char} (h : ¬('A' ≤ c ∧ c ≤ 'Z')) : schemeLower c = c := by
  unfold schemeLower
  rw [if_neg h]

theorem schemeLower_upper_toNat {c : Char} (h1 : 'A' ≤ c) (h2 : c ≤ 'Z') :
    (schemeLower c).toNat = c.toNat + 32 := by
  unfold schemeLower
  rw [if_pos ⟨h1, h2⟩]
  have n2 : c.toNat ≤ 90 := h2
  exact toNat_ofNat_valid _ (Or.inl (by omega))

theorem schemeLower_idem (c : Char) : schemeLower (schemeLower c) = schemeLower c := by
  by_cases h : 'A' ≤ c ∧ c ≤ 'Z'
  · apply schemeLower_not_upper
    intro h2
    have hx := schemeLower_upper_toNat h.1 h.2
    have m2 : (schemeLower c).toNat ≤ 90 := h2.2
    have n1 : 65 ≤ c.toNat := h.1
    omega
  · rw [schemeLower_not_upper h, schemeLower_not_upper h]

theorem isSchemeChar_lower {c : Char} (h : isSchemeChar c = true) :
    isSchemeChar (schemeLower c) = true := by
  by_cases hu : 'A' ≤ c ∧ c ≤ 'Z'
  · have hx := schemeLower_upper_toNat hu.1 hu.2
    have n1 : 65 ≤ c.toNat := hu.1
    have n2 : c.toNat ≤ 90 := hu.2
    unfold isSchemeChar
    simp only [Bool.or_eq_true, decide_eq_true_eq]
    exact Or.inl (Or.inl (Or.inl (Or.inl
      ⟨show 97 ≤ (schemeLower c).toNat by omega, show (schemeLower c).toNat ≤ 122 by omega⟩)))
  · rw [schemeLower_not_upper hu]
    exact h

theorem schemeChar_ne_colon {c : Char} (h : isSchemeChar c = true) : c ≠ ':' := by
  intro he
  subst he
  revert h
  decide

theorem splitFirst_not_mem {sep : Char} {l : List Char} (h : sep ∉ l) :
    splitFirst sep l = none := by
  cases hs : splitFirst sep l with
  | none => rfl
  | some q =>
    obtain ⟨he, _⟩ := splitFirst_eq hs
    exact absurd (by rw [he]; exact List.mem_append_right _ (List.mem_cons_self _ _)) h

theorem splitFirst_append {sep : Char} {a : List Char} (b : List Char) (h : sep ∉ a) :
    splitFirst sep (a ++ sep :: b) = some (a, b) := by
  induction a with
  | nil => simp [splitFirst]
  | cons c cs ih =>
    have hc : c ≠ sep := fun he => h (he ▸ List.mem_cons_self _ _)
    rw [List.cons_append, splitFirst, if_neg hc, ih (fun hm => h (List.mem_cons_of_mem _ hm))]
    rfl

theorem schemeSplit_none {p : List Char} (d : List Char) (h : ':' ∉ p) :
    schemeSplit p d = (d, p) := by
  unfold schemeSplit
  rw [splitFirst_not_mem h]

theorem netlocSplit_plain {p : List Char} (h : p.take 2 ≠ ['/', '/']) :
    netlocSplit p = ([], p) := by
  unfold netlocSplit
  rw [if_neg h]

theorem fragSplit_none {p : List Char} (h : '#' ∉ p) : fragSplit p = (p, []) := by
  unfold fragSplit
  rw [splitFirst_not_mem h]

theorem querySplit_none {p : List Char} (h : '?' ∉ p) : querySplit p = (p, []) := by
  unfold querySplit
  rw [splitFirst_not_mem h]

/-- `urlparse` on a string with no scheme/netloc/query/fragment/params
delimiters: everything is path, the scheme keeps its default. -/
theorem urlparseDef_plain (p defS : List Char) (h1 : ':' ∉ p) (h2 : p.take 2 ≠ ['/', '/'])
    (h3 : '#' ∉ p) (h4 : '?' ∉ p) (h5 : ';' ∉ p) :
    urlparseDef p defS = ⟨defS, [], p, [], [], []⟩ := by
  unfold urlparseDef urlsplitModel
  simp only [schemeSplit_none defS h1, netlocSplit_plain h2, fragSplit_none h3, querySplit_none h4]
  simp [h5]

/-- `urlunparse` of a bare scheme/netloc/rooted-path triple. -/
theorem urlunparse_simple (s nl p : List Char) (hnl : nl ≠ []) (hp : p.take 1 = ['/']) :
    urlunparseModel ⟨s, nl, p, [], [], []⟩ =
      (if s = [] then [] else s ++ [':']) ++ '/' :: '/' :: nl ++ p := by
  unfold urlunparseModel urlunsplitModel
  simp only [ne_eq, not_true_eq_false, if_false, hnl, not_false_eq_true, true_or, if_true, hp]
  by_cases hs : s = []
  · simp [hs, hp]
  · simp [hs, hp]

theorem uses_relative_subset_netloc {s : List Char} (h : s ∈ uses_relative) :
    s ∈ uses_netloc := by
  have hall : uses_relative.all (fun x => decide (x ∈ uses_netloc)) = true := by decide
  exact of_decide_eq_true (List.all_eq_true.mp hall s h)

/-- `urljoin` against a root-relative plain path `'/' :: np`: for a base
with an authority, the result re-joins scheme and authority when the
scheme supports relative resolution, and degenerates to the bare path
otherwise. -/
theorem urljoin_root_rel (base np : List Char)
    (hb : (urlparseModel base).netloc ≠ [])
    (hnp1 : np ≠ []) (hnp2 : np.take 1 ≠ ['/'])
    (hplain : ∀ c ∈ np, plainChar c = true) :
    urljoinModel base ('/' :: np) =
      if (urlparseModel base).scheme ∈ uses_relative then
        (if (urlparseModel base).scheme = [] then [] else (urlparseModel base).scheme ++ [':']) ++
          '/' :: '/' :: (urlparseModel base).netloc ++ '/' :: np
      else '/' :: np := by
  have hbase : base ≠ [] := by
    intro he
    apply hb
    rw [he]
    decide
  have hmemchar : ∀ c : Char, plainChar c = false → c ∉ ('/' :: np) := by
    intro c hc hm
    cases List.mem_cons.mp hm with
    | inl he => rw [he] at hc; exact absurd hc (by decide)
    | inr hm' => rw [hplain c hm'] at hc; exact absurd hc (by simp)
  have hcolon : ':' ∉ ('/' :: np) := hmemchar ':' (by decide)
  have hhash : '#' ∉ ('/' :: np) := hmemchar '#' (by decide)
  have hquest : '?' ∉ ('/' :: np) := hmemchar '?' (by decide)
  have hsemi : ';' ∉ ('/' :: np) := hmemchar ';' (by decide)
  have htake : ('/' :: np).take 2 ≠ ['/', '/'] := by
    cases np with
    | nil => exact absurd rfl hnp1
    | cons c cs =>
      intro he
      have hc : c = '/' := by
        have := List.cons.inj he
        exact (List.cons.inj this.2).1
      exact hnp2 (by rw [hc]; rfl)
  have hu : urlparseDef ('/' :: np) (urlparseDef base []).scheme =
      ⟨(urlparseDef base []).scheme, [], '/' :: np, [], [], []⟩ :=
    urlparseDef_plain _ _ hcolon htake hhash hquest hsemi
  unfold urljoinModel
  rw [if_neg (by simpa using hbase), if_neg (by simp)]
  simp only [hu]
  have hb2 : (urlparseDef base []).netloc ≠ [] := hb
  by_cases hrel : (urlparseModel base).scheme ∈ uses_relative
  · have hrel2 : (urlparseDef base []).scheme ∈ uses_relative := hrel
    have hnet : (urlparseDef base []).scheme ∈ uses_netloc := uses_relative_subset_netloc hrel2
    rw [if_neg (by simp [hrel2])]
    rw [if_neg (by simp : ¬((urlparseDef base []).scheme ∈ uses_netloc ∧ ([] : List Char) ≠ []))]
    rw [if_pos hnet]
    rw [if_pos (by rfl : ('/' :: np).take 1 = ['/'])]
    rw [urlunparse_simple ((urlparseDef base []).scheme) ((urlparseDef base []).netloc)
      ('/' :: np) hb2 (by rfl)]
    rw [if_pos hrel]
    rfl
  · have hrel2 : (urlparseDef base []).scheme ∉ uses_relative := hrel
    rw [if_pos (Or.inr hrel2)]
    rw [if_neg hrel]

theorem basename_subset {p : List Char} : ∀ c ∈ basename p, c ∈ p := by
  intro c hc
  have h1 : c ∈ p.reverse.takeWhile (fun c => c != '/') := List.mem_reverse.mp hc
  exact List.mem_reverse.mp ((List.takeWhile_sublist _).subset h1)

theorem dirname_subset {p : List Char} : ∀ c ∈ dirname p, c ∈ p := by
  intro c hc
  unfold dirname at hc
  have hhead : ∀ c ∈ headPart p, c ∈ p := by
    intro c hc2
    have h1 : c ∈ p.reverse.dropWhile (fun c => c != '/') := List.mem_reverse.mp hc2
    exact List.mem_reverse.mp ((List.dropWhile_sublist _).subset h1)
  by_cases hg : headPart p ≠ [] ∧ (headPart p).any (fun c => c != '/')
  · rw [if_pos hg] at hc
    apply hhead
    unfold rstripSlash at hc
    have h1 : c ∈ (headPart p).reverse.dropWhile (fun c => c == '/') := List.mem_reverse.mp hc
    exact List.mem_reverse.mp ((List.dropWhile_sublist _).subset h1)
  · rw [if_neg hg] at hc
    exact hhead c hc

/-- Shape facts for the replacement's relative part
`pjoin (dirname asset) (basename nf)`. -/
theorem np_facts {asset nf : List Char} (hA : cleanPath asset) (hNf : cleanPath nf) :
    pjoin (dirname asset) (basename nf) ≠ [] ∧
    (pjoin (dirname asset) (basename nf)).take 1 ≠ ['/'] ∧
    (∀ c ∈ pjoin (dirname asset) (basename nf), plainChar c = true) := by
  have hbn : '/' ∉ basename nf := slash_not_mem_basename nf
  have hbne : basename nf ≠ [] := (cleanPath_basename hNf).1
  have hbtake : (basename nf).take 1 ≠ ['/'] := by
    cases hb : basename nf with
    | nil => exact absurd hb hbne
    | cons c cs =>
      intro he
      have : c = '/' := by simpa using he
      exact hbn (by rw [hb, this]; exact List.mem_cons_self _ _)
  have hbplain : ∀ c ∈ basename nf, plainChar c = true :=
    fun c hc => hNf.2.1 c (basename_subset c hc)
  cases cleanPath_decomp hA with
  | inl hd =>
    obtain ⟨_, hdir, _, _⟩ := hd
    rw [hdir]
    unfold pjoin
    rw [if_neg hbtake, if_pos (Or.inl rfl)]
    simpa using ⟨hbne, hbtake, hbplain⟩
  | inr hd =>
    obtain ⟨w, hw, hdir, hwne, hwlast, hwtake, ha, _⟩ := hd
    rw [hdir]
    unfold pjoin
    rw [if_neg hbtake, if_neg (by simp [hwne, hwlast])]
    refine ⟨by simp, ?_, ?_⟩
    · cases hwc : w with
      | nil => exact absurd hwc hwne
      | cons c cs =>
        intro he
        have hc2 : c = '/' := by simpa using he
        exact hwtake (by rw [hwc, hc2]; rfl)
    · intro c hc
      cases List.mem_append.mp hc with
      | inl hcw => exact hA.2.1 c (by rw [← hdir] at hcw; exact dirname_subset c hcw)
      | inr hcr =>
        cases List.mem_cons.mp hcr with
        | inl he => rw [he]; decide
        | inr hm => exact hbplain c hm

/-- A successful rewrite replaces the token by the new root path, routed
through `urljoin` exactly when the token had an authority. -/
theorem rewriteUrlToken_some_form {domains : List (List Char)} {srcRelDir asset nf url r : List Char}
    (hrw : rewriteUrlToken domains srcRelDir asset nf url = some r) :
    asset = normalizedRelPath srcRelDir (urlparseModel url).path ∧
    r = (if (urlparseModel url).netloc ≠ [] then
        urljoinModel url ('/' :: pjoin (dirname asset) (basename nf))
      else '/' :: pjoin (dirname asset) (basename nf)) := by
  unfold rewriteUrlToken at hrw
  by_cases h1 : (urlparseModel url).netloc ≠ [] ∧ (urlparseModel url).netloc ∉ domains
  · rw [if_pos h1] at hrw
    exact absurd hrw (by simp)
  · rw [if_neg h1] at hrw
    by_cases h2 : asset = normalizedRelPath srcRelDir (urlparseModel url).path
    · rw [if_pos h2] at hrw
      refine ⟨h2, ?_⟩
      have e := Option.some.inj hrw
      rw [← e, ← h2]
    · rw [if_neg h2] at hrw
      exact absurd hrw (by simp)

/-- C4 (amended): a replaced reference without an authority becomes a
site-root-absolute path with a leading slash, built from the asset's
content-addressed basename under the normalized directory.  A replaced
reference with an authority is re-joined against the original
(lower-cased) scheme and authority *provided* the parsed scheme is one
the url library lists in `uses_relative` (`http`, `https`, the empty
scheme, `ftp`, …); for any other scheme `urljoin` returns the bare
root path and the authority is dropped. -/
theorem c4_authority_form_amended (domains : List (List Char)) (srcRelDir asset nf url r : List Char)
    (hA : cleanPath asset) (hNf : cleanPath nf)
    (hrw : rewriteUrlToken domains srcRelDir asset nf url = some r) :
    ((urlparseModel url).netloc = [] → r = '/' :: pjoin (dirname asset) (basename nf)) ∧
    ((urlparseModel url).netloc ≠ [] →
      ((urlparseModel url).scheme ∈ uses_relative →
        r = (if (urlparseModel url).scheme = [] then [] else (urlparseModel url).scheme ++ [':']) ++
          '/' :: '/' :: (urlparseModel url).netloc ++
          '/' :: pjoin (dirname asset) (basename nf)) ∧
      ((urlparseModel url).scheme ∉ uses_relative →
        r = '/' :: pjoin (dirname asset) (basename nf))) := by
  obtain ⟨hnorm, hr⟩ := rewriteUrlToken_some_form hrw
  obtain ⟨hnp1, hnp2, hnp3⟩ := np_facts hA hNf
  constructor
  · intro hn
    rw [hr, if_neg (by simp [hn])]
  · intro hn
    rw [hr, if_pos hn]
    rw [urljoin_root_rel url _ hn hnp1 hnp2 hnp3]
    constructor
    · intro hrel
      rw [if_pos hrel]
    · intro hrel
      rw [if_neg hrel]

theorem c4_authority_form_amended_witness :
    ("https://example.com/style.abc.css".toList) =
      (if (urlparseModel ("https://example.com/style.css".toList)).scheme = [] then []
       else (urlparseModel ("https://example.com/style.css".toList)).scheme ++ [':']) ++
        '/' :: '/' :: (urlparseModel ("https://example.com/style.css".toList)).netloc ++
        '/' :: pjoin (dirname ("style.css".toList)) (basename ("style.abc.css".toList)) :=
  ((c4_authority_form_amended [("example.com".toList)] [] ("style.css".toList)
      ("style.abc.css".toList) ("https://example.com/style.css".toList)
      ("https://example.com/style.abc.css".toList)
      (by decide) (by decide) (by decide)).2 (by decide)).1 (by decide)

theorem splitLastDot_none_of_not_mem {y : List Char} (hy : '.' ∉ y) : splitLastDot y = none := by
  cases hs : splitLastDot y with
  | none => rfl
  | some q =>
    obtain ⟨he, _⟩ := splitLastDot_eq hs
    exact absurd (by rw [he]; exact List.mem_append_right _ (List.mem_cons_self _ _)) hy

theorem splitLastDot_append {y : List Char} (hy : '.' ∉ y) :
    ∀ z : List Char, splitLastDot (z ++ '.' :: y) = some (z, y) := by
  intro z
  induction z with
  | nil =>
    rw [List.nil_append, splitLastDot, splitLastDot_none_of_not_mem hy]
    simp
  | cons c z2 ih =>
    rw [List.cons_append, splitLastDot, ih]

/-- The headPart of a path is empty or slash-terminated. -/
theorem headPart_shape (p : List Char) : headPart p = [] ∨ (headPart p).getLast? = some '/' := by
  by_cases h : headPart p = []
  · exact Or.inl h
  · obtain ⟨w, hw⟩ := headPart_last h
    right
    rw [hw]
    simp

theorem splitext_eq_of_splitLastDot {p x y : List Char}
    (hsld : splitLastDot (basename p) = some (x, y))
    (hany : (x.any fun c => c != '.') = true) :
    splitext p = (headPart p ++ x, '.' :: y) := by
  obtain ⟨hb, _⟩ := splitLastDot_eq hsld
  unfold splitext
  rw [hsld]
  simp only [hany, if_true]
  set u := headPart p ++ x with hu
  have hp : p = u ++ '.' :: y := by
    conv_lhs => rw [← headPart_append_basename p]
    rw [hb, hu, List.append_assoc]
  have hlen : p.length - (y.length + 1) = u.length := by
    rw [hp]
    simp [List.length_append]
  rw [hlen, hp, List.take_left]

/-- C9: content addressing preserves the final extension: for a path
whose extension is in the asset-extension set (so the file is an
asset), the addressed name `convert_filename p h` has the same
extension as `p` whenever the fingerprint contains no dot and no
slash (sha256 hex digests qualify).  Consequently the extension-based
classifications applied to staged names (asset for headers and upload
skipping, compressible for gzip, rewritable) agree with the source
file's classification. -/
theorem c9_extension_preserved (p h : List Char) (hd : '.' ∉ h) (hs : '/' ∉ h)
    (hext : (splitext p).2 ∈ assets_ext) :
    (splitext (convert_filename p h)).2 = (splitext p).2 ∧
    ((splitext (convert_filename p h)).2 ∈ assets_ext ↔ (splitext p).2 ∈ assets_ext) ∧
    ((splitext (convert_filename p h)).2 ∈ gzip_ext ↔ (splitext p).2 ∈ gzip_ext) ∧
    ((splitext (convert_filename p h)).2 ∈ rewriteables_ext ↔ (splitext p).2 ∈ rewriteables_ext) := by
  have hne : (splitext p).2 ≠ [] := by
    intro he
    rw [he] at hext
    revert hext
    decide
  have hmain : (splitext (convert_filename p h)).2 = (splitext p).2 := by
    cases hsld : splitLastDot (basename p) with
    | none =>
      exfalso
      apply hne
      unfold splitext
      rw [hsld]
    | some xy =>
      obtain ⟨x, y⟩ := xy
      by_cases hany : x.any (fun c => c != '.')
      · obtain ⟨hb, hy⟩ := splitLastDot_eq hsld
        have hsp : splitext p = (headPart p ++ x, '.' :: y) := splitext_eq_of_splitLastDot hsld hany
        have hconv : convert_filename p h = headPart p ++ (x ++ '.' :: (h ++ '.' :: y)) := by
          unfold convert_filename
          rw [hsp]
          simp
        have hble : basename (convert_filename p h) = x ++ '.' :: (h ++ '.' :: y) := by
          rw [hconv]
          apply basename_append_right (headPart_shape p)
          intro hm
          rcases List.mem_append.mp hm with hx | hm2
          · have : '/' ∈ basename p := by rw [hb]; exact List.mem_append_left _ hx
            exact slash_not_mem_basename p this
          · rcases List.mem_cons.mp hm2 with he | hm3
            · exact absurd he.symm (by decide)
            · rcases List.mem_append.mp hm3 with hh | hm4
              · exact hs hh
              · rcases List.mem_cons.mp hm4 with he | hy2
                · exact absurd he.symm (by decide)
                · have : '/' ∈ basename p := by
                    rw [hb]
                    exact List.mem_append_right _ (List.mem_cons_of_mem _ hy2)
                  exact slash_not_mem_basename p this
        have hble2 : basename (convert_filename p h) = (x ++ '.' :: h) ++ '.' :: y := by
          rw [hble]
          simp
        have hsld2 : splitLastDot (basename (convert_filename p h)) = some (x ++ '.' :: h, y) := by
          rw [hble2]
          exact splitLastDot_append hy _
        have hany2 : ((x ++ '.' :: h).any fun c => c != '.') = true := by
          rcases List.any_eq_true.mp hany with ⟨c, hc, hcp⟩
          exact List.any_eq_true.mpr ⟨c, List.mem_append_left _ hc, hcp⟩
        rw [splitext_eq_of_splitLastDot hsld2 hany2, hsp]
      · exfalso
        apply hne
        unfold splitext
        rw [hsld]
        simp [hany]
  exact ⟨hmain, by rw [hmain], by rw [hmain], by rw [hmain]⟩

theorem c9_extension_preserved_witness :
    (splitext (convert_filename ("img/logo.png".toList) ("4e".toList))).2 =
      (splitext ("img/logo.png".toList)).2 :=
  (c9_extension_preserved ("img/logo.png".toList) ("4e".toList)
    (by decide) (by decide) (by decide)).1

theorem headPart_subset {p : List Char} : ∀ c ∈ headPart p, c ∈ p := by
  intro c hc
  have h1 : c ∈ p.reverse.dropWhile (fun c => c != '/') := List.mem_reverse.mp hc
  exact List.mem_reverse.mp ((List.dropWhile_sublist _).subset h1)

/-- Structure of the addressed name: `convert_filename a h` appends a
single new basename after the unchanged `headPart`. -/
theorem convert_parts {a h : List Char} (hA : cleanPath a) (hH : cleanHash h) :
    ∃ B, convert_filename a h = headPart a ++ B ∧
      basename (convert_filename a h) = B ∧
      B ≠ [] ∧ '/' ∉ B ∧ B ≠ ['.'] ∧ B ≠ ['.', '.'] ∧
      (∀ c ∈ B, plainChar c = true) ∧ B.take 1 = (basename a).take 1 := by
  have hbplain : ∀ c ∈ basename a, plainChar c = true :=
    fun c hc => hA.2.1 c (basename_subset c hc)
  have hbslash : '/' ∉ basename a := slash_not_mem_basename a
  have hbne : basename a ≠ [] := (cleanPath_basename hA).1
  have key : ∃ x2 y2, splitext a = (headPart a ++ x2, y2) ∧ basename a = x2 ++ y2 ∧ x2 ≠ [] := by
    cases hsld : splitLastDot (basename a) with
    | none =>
      refine ⟨basename a, [], ?_, by simp, hbne⟩
      unfold splitext
      rw [hsld, headPart_append_basename a]
    | some xy =>
      obtain ⟨x, y⟩ := xy
      by_cases hany : x.any (fun c => c != '.')
      · obtain ⟨hb, _⟩ := splitLastDot_eq hsld
        exact ⟨x, '.' :: y, splitext_eq_of_splitLastDot hsld hany, hb, by
          rcases List.any_eq_true.mp hany with ⟨c, hc, _⟩
          exact List.ne_nil_of_mem hc⟩
      · refine ⟨basename a, [], ?_, by simp, hbne⟩
        unfold splitext
        rw [hsld]
        simp only [hany]
        rw [if_neg (by simpa using hany), headPart_append_basename a]
  obtain ⟨x2, y2, hsp, hb2, hx2ne⟩ := key
  refine ⟨x2 ++ '.' :: (h ++ y2), ?_, ?_, by simp, ?_, ?_, ?_, ?_, ?_⟩
  · unfold convert_filename
    rw [hsp]
    simp
  · have hcv : convert_filename a h = headPart a ++ (x2 ++ '.' :: (h ++ y2)) := by
      unfold convert_filename
      rw [hsp]
      simp
    rw [hcv]
    apply basename_append_right (headPart_shape a)
    intro hm
    rcases List.mem_append.mp hm with hx | hm2
    · exact hbslash (hb2 ▸ List.mem_append_left _ hx)
    · rcases List.mem_cons.mp hm2 with he | hm3
      · exact absurd he.symm (by decide)
      · rcases List.mem_append.mp hm3 with hh | hy2
        · exact (hH.2 '/' hh).2.1 rfl
        · exact hbslash (hb2 ▸ List.mem_append_right _ hy2)
  · intro hm
    rcases List.mem_append.mp hm with hx | hm2
    · exact hbslash (hb2 ▸ List.mem_append_left _ hx)
    · rcases List.mem_cons.mp hm2 with he | hm3
      · exact absurd he.symm (by decide)
      · rcases List.mem_append.mp hm3 with hh | hy2
        · exact (hH.2 '/' hh).2.1 rfl
        · exact hbslash (hb2 ▸ List.mem_append_right _ hy2)
  · intro he
    have hlen := congrArg List.length he
    have hxl : 1 ≤ x2.length := by
      cases hx : x2 with
      | nil => exact absurd hx hx2ne
      | cons c cs => simp
    simp [List.length_append] at hlen
    omega
  · intro he
    have hlen := congrArg List.length he
    have hhl : 1 ≤ h.length := by
      cases hh : h with
      | nil => exact absurd hh hH.1
      | cons c cs => simp
    have hxl : 1 ≤ x2.length := by
      cases hx : x2 with
      | nil => exact absurd hx hx2ne
      | cons c cs => simp
    simp [List.length_append] at hlen
    omega
  · intro c hc
    rcases List.mem_append.mp hc with hx | hm2
    · exact hbplain c (hb2 ▸ List.mem_append_left _ hx)
    · rcases List.mem_cons.mp hm2 with he | hm3
      · rw [he]; decide
      · rcases List.mem_append.mp hm3 with hh | hy2
        · exact (hH.2 c hh).1
        · exact hbplain c (hb2 ▸ List.mem_append_right _ hy2)
  · cases hx : x2 with
    | nil => exact absurd hx hx2ne
    | cons c cs =>
      rw [hb2, hx]
      rfl

/-- The replacement path the rewriter builds for a rewritten asset whose
record holds `convert_filename a h` re-assembles to that very
addressed name: splitting it into directory and basename loses
nothing. -/
theorem pjoin_dirname_basename_convert {a h : List Char} (hA : cleanPath a) (hH : cleanHash h) :
    pjoin (dirname a) (basename (convert_filename a h)) = convert_filename a h := by
  obtain ⟨B, hcv, hbn, hBne, hBs, _, _, _, hBt⟩ := convert_parts hA hH
  have hBtake : B.take 1 ≠ ['/'] := by
    cases hB : B with
    | nil => exact absurd hB hBne
    | cons c cs =>
      intro he
      have hc : c = '/' := by simpa using he
      exact hBs (by rw [hB, hc]; exact List.mem_cons_self _ _)
  rw [hbn]
  cases cleanPath_decomp hA with
  | inl hd =>
    obtain ⟨hhp, hdir, _, _⟩ := hd
    rw [hdir]
    unfold pjoin
    rw [if_neg hBtake, if_pos (Or.inl rfl), hcv, hhp]
  | inr hd =>
    obtain ⟨w, hw, hdir, hwne, hwlast, _, _, _⟩ := hd
    rw [hdir]
    unfold pjoin
    rw [if_neg hBtake, if_neg (by simp [hwne, hwlast]), hcv, hw]
    simp

/-- The addressed name of a well-formed path under a well-formed
fingerprint is again a well-formed path. -/
theorem cleanPath_convert {a h : List Char} (hA : cleanPath a) (hH : cleanHash h) :
    cleanPath (convert_filename a h) := by
  obtain ⟨B, hcv, _, hBne, hBs, hBd, hBdd, hBp, _⟩ := convert_parts hA hH
  refine ⟨by rw [hcv]; simp [hBne], ?_, ?_⟩
  · intro c hc
    rw [hcv] at hc
    rcases List.mem_append.mp hc with hh | hb
    · exact hA.2.1 c (headPart_subset c hh)
    · exact hBp c hb
  · intro comp hcomp
    rw [hcv] at hcomp
    by_cases hhp : headPart a = []
    · rw [hhp, List.nil_append, splitOnChar_no_sep '/' hBs] at hcomp
      have : comp = B := List.mem_singleton.mp hcomp
      rw [this]
      exact ⟨hBne, hBd, hBdd⟩
    · cases cleanPath_decomp hA with
      | inl hd => exact absurd hd.1 hhp
      | inr hd =>
        obtain ⟨w2, hw2, _, _, _, _, _, hwcomps⟩ := hd
        have hcv2 : headPart a ++ B = w2 ++ '/' :: B := by rw [hw2]; simp
        rw [hcv2, splitOnChar_append, splitOnChar_no_sep '/' hBs] at hcomp
        rcases List.mem_append.mp hcomp with hcw | hcb
        · exact hwcomps comp hcw
        · rw [List.mem_singleton.mp hcb]
          exact ⟨hBne, hBd, hBdd⟩

theorem normStep_fold_clean (b : Bool) :
    ∀ (l acc : List (List Char)),
      (∀ comp ∈ l, comp ≠ [] ∧ comp ≠ ['.'] ∧ comp ≠ ['.', '.']) →
      l.foldl (normStep b) acc = acc ++ l := by
  intro l
  induction l with
  | nil => intro acc _; simp
  | cons comp rest ih =>
    intro acc hc
    obtain ⟨h1, h2, h3⟩ := hc comp (List.mem_cons_self _ _)
    have hstep : normStep b acc comp = acc ++ [comp] := by
      unfold normStep
      rw [if_neg (by simp [h1, h2]), if_pos (Or.inl h3)]
    simp only [List.foldl_cons, hstep]
    rw [ih _ (fun c hm => hc c (List.mem_cons_of_mem _ hm))]
    simp

/-- `normpath` fixes a rooted well-formed path. -/
theorem normpath_abs_clean {q : List Char} (hq : cleanPath q) :
    normpath ('/' :: q) = '/' :: q := by
  have hq1 : q ≠ [] := hq.1
  have hqt : q.take 1 ≠ ['/'] := clean_not_start_slash hq
  have ht2 : ('/' :: q).take 2 ≠ ['/', '/'] := by
    cases hc : q with
    | nil => subst hc; simp
    | cons c cs =>
      intro he
      have : c = '/' := by
        have h2 := List.cons.inj he
        exact (List.cons.inj h2.2).1
      exact hqt (by rw [hc, this]; rfl)
  have hcomps : splitOnChar '/' ('/' :: q) = [] :: splitOnChar '/' q := by
    rw [splitOnChar]
    cases hs : splitOnChar '/' q with
    | nil => exact absurd hs (splitOnChar_ne_nil '/' q)
    | cons a b => simp
  unfold normpath
  rw [if_neg (by simp)]
  simp only [ht2, false_and, if_false, if_pos (by rfl : ('/' :: q).take 1 = ['/'])]
  rw [hcomps]
  simp only [List.foldl_cons]
  have hfirst : normStep (1 ≠ 0) [] [] = [] := by
    unfold normStep
    rw [if_pos (Or.inl rfl)]
  rw [hfirst, normStep_fold_clean _ _ _ hq.2.2, List.nil_append, joinChar_splitOnChar]
  rw [if_neg (by simp)]
  rfl

theorem lstripSlashes_slash_cons {q : List Char} (hqt : q.take 1 ≠ ['/']) :
    lstripSlashes ('/' :: q) = q := by
  unfold lstripSlashes
  rw [List.dropWhile_cons]
  simp only [beq_self_eq_true, if_true]
  cases hc : q with
  | nil => rfl
  | cons c cs =>
    have : c ≠ '/' := by
      intro he
      exact hqt (by rw [hc, he]; rfl)
    exact dropWhile_cons_false _ (by simpa using this)

theorem pjoin_abs (d q : List Char) (hq : q.take 1 = ['/']) : pjoin d q = q := by
  unfold pjoin
  rw [if_pos hq]



theorem schemeSplit_eq_some {url : List Char} {pr : List Char × List Char} (d : List Char)
    (hsp : splitFirst ':' url = some pr) :
    schemeSplit url d =
      if pr.1 ≠ [] ∧ pr.1.all isSchemeChar = true ∧ (pr.2 = [] ∨ ¬ pr.2.all Char.isDigit = true)
      then (pr.1.map schemeLower, pr.2) else (d, url) := by
  unfold schemeSplit
  rw [hsp]

theorem urlparseDef_keeps (url d : List Char) :
    (urlparseDef url d).scheme = (urlsplitModel url d).scheme ∧
    (urlparseDef url d).netloc = (urlsplitModel url d).netloc := by
  by_cases h : (urlsplitModel url d).scheme ∈ uses_params ∧ ';' ∈ (urlsplitModel url d).path
  · constructor <;> simp only [urlparseDef, if_pos h]
  · constructor <;> simp only [urlparseDef, if_neg h]

/-- Well-formedness of every `urlparse` result: the scheme is empty or a
non-empty lower-cased run of scheme characters, and the netloc holds
none of `/`, `?`, `#`. -/
theorem urlparse_wf (url : List Char) :
    ((urlparseModel url).scheme = [] ∨
      ((urlparseModel url).scheme ≠ [] ∧ (urlparseModel url).scheme.all isSchemeChar = true ∧
        (urlparseModel url).scheme.map schemeLower = (urlparseModel url).scheme)) ∧
    (∀ c ∈ (urlparseModel url).netloc, (c == '/' || c == '?' || c == '#') = false) := by
  have hmap : ∀ s : List Char, s.all isSchemeChar = true →
      ((s.map schemeLower).all isSchemeChar = true ∧
        (s.map schemeLower).map schemeLower = s.map schemeLower) := by
    intro s hall
    constructor
    · apply List.all_eq_true.mpr
      intro c hc
      rcases List.mem_map.mp hc with ⟨c2, hc2, he⟩
      rw [← he]
      exact isSchemeChar_lower (List.all_eq_true.mp hall c2 hc2)
    · rw [List.map_map]
      apply List.map_congr_left
      intro c _
      exact schemeLower_idem c
  have hsch : (urlparseModel url).scheme = (schemeSplit url []).1 := (urlparseDef_keeps url []).1
  have hnl : (urlparseModel url).netloc = (netlocSplit (schemeSplit url []).2).1 :=
    (urlparseDef_keeps url []).2
  rw [hsch, hnl]
  constructor
  · cases hsp : splitFirst ':' url with
    | none =>
      left
      unfold schemeSplit
      rw [hsp]
    | some pr =>
      rw [schemeSplit_eq_some [] hsp]
      by_cases hcond : pr.1 ≠ [] ∧ pr.1.all isSchemeChar = true ∧
          (pr.2 = [] ∨ ¬ pr.2.all Char.isDigit = true)
      · rw [if_pos hcond]
        right
        refine ⟨by simpa using hcond.1, (hmap pr.1 hcond.2.1).1, (hmap pr.1 hcond.2.1).2⟩
      · rw [if_neg hcond]
        exact Or.inl rfl
  · unfold netlocSplit
    by_cases h2 : (schemeSplit url []).2.take 2 = ['/', '/']
    · rw [if_pos h2]
      intro c hc
      have := List.mem_takeWhile_imp hc
      simpa using this
    · rw [if_neg h2]
      intro c hc
      simp at hc

/-- Re-parsing a reassembled `scheme://netloc/path` url recovers its
parts, for a lower-cased scheme, a delimiter-free netloc and a plain
rooted path. -/
theorem urlparse_reassembled (s nl q : List Char)
    (hs : s = [] ∨ (s ≠ [] ∧ s.all isSchemeChar = true ∧ s.map schemeLower = s))
    (hnl : nl ≠ []) (hnlc : ∀ c ∈ nl, (c == '/' || c == '?' || c == '#') = false)
    (hq : ∀ c ∈ q, plainChar c = true) (hq1 : q ≠ []) (hq2 : q.take 1 ≠ ['/']) :
    urlparseModel ((if s = [] then [] else s ++ [':']) ++ ('/' :: '/' :: nl ++ '/' :: q)) =
      ⟨s, nl, '/' :: q, [], [], []⟩ := by
  have hqmem : ∀ ch : Char, plainChar ch = false → ch ∉ ('/' :: q) := by
    intro ch hch hm
    rcases List.mem_cons.mp hm with he | hm2
    · rw [he] at hch
      exact absurd hch (by decide)
    · rw [hq ch hm2] at hch
      exact absurd hch (by simp)
  have stepB : netlocSplit ('/' :: '/' :: nl ++ '/' :: q) = (nl, '/' :: q) := by
    unfold netlocSplit
    rw [if_pos (by rfl)]
    have hpred : ∀ c ∈ nl, (fun c => !(c == '/' || c == '?' || c == '#')) c = true := by
      intro c hc
      simp only [hnlc c hc]
      rfl
    have hdrop : ('/' :: '/' :: nl ++ '/' :: q).drop 2 = nl ++ '/' :: q := by
      simp
    rw [hdrop, takeWhile_append_all hpred, dropWhile_append_all hpred]
    rw [takeWhile_cons_false _ (by rfl), dropWhile_cons_false _ (by rfl)]
    simp
  have stepC : fragSplit ('/' :: q) = ('/' :: q, []) :=
    fragSplit_none (hqmem '#' (by decide))
  have stepD : querySplit ('/' :: q) = ('/' :: q, []) :=
    querySplit_none (hqmem '?' (by decide))
  have hsemi : ';' ∉ ('/' :: q) := hqmem ';' (by decide)
  have main : ∀ pre rest, pre = (if s = [] then [] else s ++ [':']) →
      rest = '/' :: '/' :: nl ++ '/' :: q →
      schemeSplit (pre ++ rest) [] = (s, rest) →
      urlparseModel (pre ++ rest) = ⟨s, nl, '/' :: q, [], [], []⟩ := by
    intro pre rest hpre hrest stepA
    have hsplit : urlsplitModel (pre ++ rest) [] = ⟨s, nl, '/' :: q, [], [], []⟩ := by
      unfold urlsplitModel
      rw [stepA]
      simp only [hrest, stepB, stepC, stepD]
    show urlparseDef (pre ++ rest) [] = _
    unfold urlparseDef
    rw [hsplit]
    simp only []
    rw [if_neg (fun hc => hsemi hc.2)]
  cases hs with
  | inl hse =>
    subst hse
    refine main _ _ rfl rfl ?_
    rw [if_pos rfl, List.nil_append]
    cases hsp : splitFirst ':' ('/' :: '/' :: nl ++ '/' :: q) with
    | none =>
      unfold schemeSplit
      rw [hsp]
    | some pr =>
      obtain ⟨heq, _⟩ := splitFirst_eq hsp
      have hpr1 : ∃ t, pr.1 = '/' :: t := by
        cases hp1 : pr.1 with
        | nil =>
          exfalso
          rw [hp1] at heq
          simp at heq
        | cons c cs =>
          rw [hp1] at heq
          have : c = '/' := (List.cons.inj heq).1.symm
          exact ⟨cs, by rw [this]⟩
      obtain ⟨t, ht⟩ := hpr1
      rw [schemeSplit_eq_some [] hsp, if_neg]
      intro hcond
      have := List.all_eq_true.mp hcond.2.1 '/' (by rw [ht]; exact List.mem_cons_self _ _)
      exact absurd this (by decide)
  | inr hsne =>
    obtain ⟨hs1, hs2, hs3⟩ := hsne
    have hcolon : ':' ∉ s := by
      intro hm
      exact schemeChar_ne_colon (List.all_eq_true.mp hs2 ':' hm) rfl
    refine main _ _ rfl rfl ?_
    rw [if_neg hs1]
    have happ : (s ++ [':']) ++ ('/' :: '/' :: nl ++ '/' :: q) =
        s ++ ':' :: ('/' :: '/' :: nl ++ '/' :: q) := by simp
    rw [happ]
    rw [schemeSplit_eq_some [] (splitFirst_append _ hcolon)]
    rw [if_pos ⟨hs1, hs2, Or.inr (by
      intro hall
      have := List.all_eq_true.mp hall '/' (List.mem_cons_self _ _)
      exact absurd this (by decide))⟩]
    rw [hs3]

theorem rewriteUrlToken_domain_ok {domains : List (List Char)} {srcRelDir asset nf url r : List Char}
    (hrw : rewriteUrlToken domains srcRelDir asset nf url = some r) :
    (urlparseModel url).netloc = [] ∨ (urlparseModel url).netloc ∈ domains := by
  unfold rewriteUrlToken at hrw
  by_cases h1 : (urlparseModel url).netloc ≠ [] ∧ (urlparseModel url).netloc ∉ domains
  · rw [if_pos h1] at hrw
    exact absurd hrw (by simp)
  · rcases not_and_or.mp h1 with h | h
    · exact Or.inl (not_not.mp h)
    · exact Or.inr (not_not.mp h)

theorem second_pass_none {domains : List (List Char)} (srcRelDir asset' nf' : List Char)
    {r cv : List Char} (hcv : cleanPath cv)
    (hparse : (urlparseModel r).path = '/' :: cv)
    (hnl : (urlparseModel r).netloc = [] ∨ (urlparseModel r).netloc ∈ domains)
    (hne : asset' ≠ cv) :
    rewriteUrlToken domains srcRelDir asset' nf' r = none := by
  unfold rewriteUrlToken
  rw [if_neg (by
    intro hc
    rcases hnl with h | h
    · exact hc.1 h
    · exact hc.2 h)]
  rw [if_neg]
  intro he
  apply hne
  rw [he, hparse]
  unfold normalizedRelPath
  rw [pjoin_abs _ ('/' :: cv) rfl, normpath_abs_clean hcv,
    lstripSlashes_slash_cons (clean_not_start_slash hcv)]

/-- C10: the rewriter is idempotent on its own output. If a token was
rewritten against asset `asset` (fingerprint `h`, addressed name
`convert_filename asset h`), then a second pass over the replacement
token with any asset `a2` whose source-relative path differs from the
addressed path leaves the replacement unchanged, because the rewritten
token's normalized path equals the addressed path, never a source path. -/
theorem c10_rewrite_idempotent (domains : List (List Char))
    (srcRelDir asset h asset2 nf2 url r : List Char)
    (hA : cleanPath asset) (hH : cleanHash h)
    (hne : asset2 ≠ convert_filename asset h)
    (hrw : rewriteUrlToken domains srcRelDir asset (convert_filename asset h) url = some r) :
    processUrlToken domains srcRelDir asset2 nf2 r = r := by
  have hcv : cleanPath (convert_filename asset h) := cleanPath_convert hA hH
  obtain ⟨hnorm, hr⟩ := rewriteUrlToken_some_form hrw
  rw [pjoin_dirname_basename_convert hA hH] at hr
  have hplain : ∀ ch : Char, plainChar ch = false →
      ch ∉ ('/' :: convert_filename asset h) := by
    intro ch hch hm
    rcases List.mem_cons.mp hm with he | hm2
    · rw [he] at hch
      exact absurd hch (by decide)
    · rw [hcv.2.1 ch hm2] at hch
      exact absurd hch (by simp)
  have htake2 : ('/' :: convert_filename asset h).take 2 ≠ ['/', '/'] := by
    cases hcs : convert_filename asset h with
    | nil => exact absurd hcs hcv.1
    | cons c cs =>
      intro he
      have hc2 : c = '/' := by
        have := List.cons.inj he
        exact (List.cons.inj this.2).1
      refine clean_not_start_slash hcv ?_
      rw [hcs, hc2]
      rfl
  have hbare : urlparseModel ('/' :: convert_filename asset h) =
      ⟨[], [], '/' :: convert_filename asset h, [], [], []⟩ := by
    show urlparseDef _ [] = _
    exact urlparseDef_plain _ [] (hplain ':' (by decide)) htake2
      (hplain '#' (by decide)) (hplain '?' (by decide)) (hplain ';' (by decide))
  unfold processUrlToken
  by_cases hc : (urlparseModel url).netloc ≠ []
  · rw [if_pos hc] at hr
    have hwf := urlparse_wf url
    have hjoin := urljoin_root_rel url (convert_filename asset h) hc hcv.1
      (clean_not_start_slash hcv) hcv.2.1
    by_cases hrel : (urlparseModel url).scheme ∈ uses_relative
    · rw [if_pos hrel] at hjoin
      rw [hjoin] at hr
      have hr2 : r = (if (urlparseModel url).scheme = [] then []
            else (urlparseModel url).scheme ++ [':']) ++
          ('/' :: '/' :: (urlparseModel url).netloc ++ '/' :: convert_filename asset h) :=
        hr.trans (List.append_assoc _ _ _)
      have hparse := urlparse_reassembled (urlparseModel url).scheme
        (urlparseModel url).netloc (convert_filename asset h) hwf.1 hc hwf.2
        hcv.2.1 hcv.1 (clean_not_start_slash hcv)
      rw [← hr2] at hparse
      have hdom : (urlparseModel r).netloc = [] ∨ (urlparseModel r).netloc ∈ domains := by
        rw [hparse]
        rcases rewriteUrlToken_domain_ok hrw with hd | hd
        · exact absurd hd hc
        · exact Or.inr hd
      rw [second_pass_none srcRelDir asset2 nf2 hcv (by rw [hparse]) hdom hne]
      rfl
    · rw [if_neg hrel] at hjoin
      rw [hjoin] at hr
      rw [second_pass_none srcRelDir asset2 nf2 hcv (by rw [hr, hbare])
        (Or.inl (by rw [hr, hbare])) hne]
      rfl
  · rw [if_neg hc] at hr
    rw [second_pass_none srcRelDir asset2 nf2 hcv (by rw [hr, hbare])
      (Or.inl (by rw [hr, hbare])) hne]
    rfl

theorem c10_rewrite_idempotent_witness :
    processUrlToken [] "sub".toList "index.html".toList "x".toList
      "/css/style.abc.css".toList = "/css/style.abc.css".toList :=
  c10_rewrite_idempotent [] "sub".toList "css/style.css".toList "abc".toList
    "index.html".toList "x".toList "/css/style.css".toList "/css/style.abc.css".toList
    (by decide) (by decide) (by decide) (by decide)

/-! ### Staging (`_calculate_fingerprints`, `_write_files`) -/

/-- The `new_filename` column of `self._assets_map`: an association list
from an asset's source-relative path to its addressed name. -/
def AMap : Type := List (List Char × List Char)

def lookupA : AMap → List Char → Option (List Char)
  | [], _ => none
  | p :: rest, k => if p.1 = k then some p.2 else lookupA rest k

/-- In-place update of every entry holding key `k` (dict assignment). -/
def updateA (am : AMap) (k v : List Char) : AMap :=
  am.map (fun p => if p.1 = k then (k, v) else p)

/-- `_calculate_fingerprints`: for each asset, hash the source bytes and
record `convert_filename(fname, fingerprint)` as its `new_filename`. -/
def calcFingerprints (assets : List (List Char)) (src H : List Char → List Char) : AMap :=
  assets.map (fun a => (a, convert_filename a (H (src a))))

/-- One file written into the output tree: destination path (relative to
the output dir) and the bytes placed there. -/
structure WriteOp where
  dst : List Char
  bytes : List Char
deriving DecidableEq

/-- Pass 2 of `_write_files` (assets that are also rewritables): rewrite
the source into a scratch file (`R am a` is the rewritten bytes given the
current assets map), fingerprint the rewritten bytes, re-derive the
addressed name, store it in the map, and move the scratch bytes there. -/
def pass2 (H : List Char → List Char) (R : AMap → List Char → List Char) :
    List (List Char) → AMap → AMap × List WriteOp
  | [], am => (am, [])
  | a :: rest, am =>
    let b := R am a
    let nf := convert_filename a (H b)
    let out := pass2 H R rest (updateA am a nf)
    (out.1, ⟨nf, b⟩ :: out.2)

/-- `_write_files`: pass 1 copies plain assets to their addressed names,
pass 2 handles assets that are also rewritables, pass 3 rewrites
non-asset rewritables in place, pass 4 copies the remaining files.
Returns the final assets map and the ordered list of writes. -/
def writeFiles (assets rewritables files : List (List Char))
    (src H : List Char → List Char) (R : AMap → List Char → List Char) :
    AMap × List WriteOp :=
  let am0 := calcFingerprints assets src H
  let ops1 := (assets.filter (· ∉ rewritables)).map
    (fun a => WriteOp.mk ((lookupA am0 a).getD []) (src a))
  let out2 := pass2 H R (assets.filter (· ∈ rewritables)) am0
  let ops3 := (rewritables.filter (· ∉ assets)).map (fun a => WriteOp.mk a (R out2.1 a))
  let ops4 := (files.filter (fun a => a ∉ assets ∧ a ∉ rewritables)).map
    (fun a => WriteOp.mk a (src a))
  (out2.1, ops1 ++ out2.2 ++ ops3 ++ ops4)

theorem lookupA_calc {assets : List (List Char)} {src H : List Char → List Char}
    {a : List Char} (h : a ∈ assets) :
    lookupA (calcFingerprints assets src H) a = some (convert_filename a (H (src a))) := by
  induction assets with
  | nil => exact absurd h (List.not_mem_nil a)
  | cons x rest ih =>
    unfold calcFingerprints
    simp only [List.map_cons]
    show lookupA ((x, convert_filename x (H (src x))) :: calcFingerprints rest src H) a = _
    unfold lookupA
    by_cases hx : x = a
    · subst hx
      rw [if_pos rfl]
    · rw [if_neg hx]
      rcases List.mem_cons.mp h with he | hm
      · exact absurd he.symm hx
      · exact ih hm

theorem lookupA_cons (p : List Char × List Char) (rest : AMap) (k : List Char) :
    lookupA (p :: rest) k = if p.1 = k then some p.2 else lookupA rest k := rfl

theorem updateA_cons (p : List Char × List Char) (rest : AMap) (k v : List Char) :
    updateA (p :: rest) k v = (if p.1 = k then (k, v) else p) :: updateA rest k v := rfl

theorem lookupA_update_self {am : AMap} {k v : List Char} :
    lookupA (updateA am k v) k = (lookupA am k).map (fun _ => v) := by
  induction am with
  | nil => rfl
  | cons p rest ih =>
    rw [updateA_cons]
    by_cases hp : p.1 = k
    · rw [if_pos hp, lookupA_cons, lookupA_cons, if_pos rfl, if_pos hp]
      rfl
    · rw [if_neg hp, lookupA_cons, lookupA_cons, if_neg hp, if_neg hp]
      exact ih

theorem lookupA_update_other {am : AMap} {k k2 v : List Char} (h : k2 ≠ k) :
    lookupA (updateA am k v) k2 = lookupA am k2 := by
  induction am with
  | nil => rfl
  | cons p rest ih =>
    rw [updateA_cons]
    by_cases hp : p.1 = k
    · rw [if_pos hp, lookupA_cons, lookupA_cons,
        if_neg (show ¬((k, v) : List Char × List Char).1 = k2 from fun he => h he.symm),
        if_neg (show ¬ p.1 = k2 from by rw [hp]; exact fun he => h he.symm)]
      exact ih
    · rw [if_neg hp, lookupA_cons, lookupA_cons]
      by_cases hp2 : p.1 = k2
      · rw [if_pos hp2, if_pos hp2]
      · rw [if_neg hp2, if_neg hp2]
        exact ih

theorem pass2_cons (H : List Char → List Char) (R : AMap → List Char → List Char)
    (a : List Char) (rest : List (List Char)) (am : AMap) :
    pass2 H R (a :: rest) am =
      ((pass2 H R rest (updateA am a (convert_filename a (H (R am a))))).1,
        WriteOp.mk (convert_filename a (H (R am a))) (R am a) ::
          (pass2 H R rest (updateA am a (convert_filename a (H (R am a))))).2) := rfl

theorem pass2_not_mem {H : List Char → List Char} {R : AMap → List Char → List Char}
    {a : List Char} : ∀ {l : List (List Char)} {am : AMap}, a ∉ l →
    lookupA (pass2 H R l am).1 a = lookupA am a := by
  intro l
  induction l with
  | nil => intro am _; rfl
  | cons x rest ih =>
    intro am hnm
    rw [pass2_cons]
    have hax : a ≠ x := fun he => hnm (he ▸ List.mem_cons_self x rest)
    rw [ih (fun hm => hnm (List.mem_cons_of_mem x hm))]
    exact lookupA_update_other hax

theorem pass2_mem {H : List Char → List Char} {R : AMap → List Char → List Char}
    {a : List Char} : ∀ {l : List (List Char)} {am : AMap}, a ∈ l → l.Nodup →
    (lookupA am a).isSome = true →
    ∃ m, lookupA (pass2 H R l am).1 a = some (convert_filename a (H (R m a))) ∧
      WriteOp.mk (convert_filename a (H (R m a))) (R m a) ∈ (pass2 H R l am).2 := by
  intro l
  induction l with
  | nil => intro am hm; exact absurd hm (List.not_mem_nil a)
  | cons x rest ih =>
    intro am hm hnd hsome
    rw [pass2_cons]
    by_cases hax : a = x
    · subst hax
      refine ⟨am, ?_, List.mem_cons_self _ _⟩
      have hnr : a ∉ rest := (List.nodup_cons.mp hnd).1
      rw [pass2_not_mem hnr, lookupA_update_self]
      cases ho : lookupA am a with
      | none => rw [ho] at hsome; exact absurd hsome (by simp)
      | some w => rfl
    · have hmr : a ∈ rest := by
        rcases List.mem_cons.mp hm with he | hr
        · exact absurd he hax
        · exact hr
      have hsome2 : (lookupA (updateA am x (convert_filename x (H (R am x)))) a).isSome
          = true := by
        rw [lookupA_update_other hax]
        exact hsome
      obtain ⟨m, hl, hop⟩ := ih hmr (List.nodup_cons.mp hnd).2 hsome2
      exact ⟨m, hl, List.mem_cons_of_mem _ hop⟩

/-- C1: after staging, every asset's recorded addressed name embeds the
fingerprint of the bytes actually written at that name — the rewritten
bytes (`R m a` for the assets-map state `m` at rewrite time) when the
asset is also a rewritable, the source bytes otherwise. -/
theorem c1_staged_hash (assets rewritables files : List (List Char))
    (src H : List Char → List Char) (R : AMap → List Char → List Char)
    (a : List Char) (hmem : a ∈ assets) (hnd : assets.Nodup) :
    ∃ b, lookupA (writeFiles assets rewritables files src H R).1 a
        = some (convert_filename a (H b)) ∧
      WriteOp.mk (convert_filename a (H b)) b
        ∈ (writeFiles assets rewritables files src H R).2 ∧
      (a ∈ rewritables → ∃ m, b = R m a) ∧
      (a ∉ rewritables → b = src a) := by
  have h1 : (writeFiles assets rewritables files src H R).1 =
      (pass2 H R (assets.filter (· ∈ rewritables)) (calcFingerprints assets src H)).1 := rfl
  by_cases hrew : a ∈ rewritables
  · have hml : a ∈ assets.filter (· ∈ rewritables) :=
      List.mem_filter.mpr ⟨hmem, by simpa using hrew⟩
    have hsome : (lookupA (calcFingerprints assets src H) a).isSome = true := by
      rw [lookupA_calc hmem]
      rfl
    obtain ⟨m, hl, hop⟩ := pass2_mem hml (hnd.filter _) hsome
    refine ⟨R m a, by rw [h1]; exact hl, ?_, fun _ => ⟨m, rfl⟩, fun hc => absurd hrew hc⟩
    show _ ∈ _ ++ _ ++ _ ++ _
    simp only [List.mem_append]
    exact Or.inl (Or.inl (Or.inr hop))
  · have hnl : a ∉ assets.filter (· ∈ rewritables) := by
      intro hml
      exact hrew (by simpa using (List.mem_filter.mp hml).2)
    refine ⟨src a, ?_, ?_, fun hc => absurd hc hrew, fun _ => rfl⟩
    · rw [h1, pass2_not_mem hnl, lookupA_calc hmem]
    · show _ ∈ _ ++ _ ++ _ ++ _
      simp only [List.mem_append]
      refine Or.inl (Or.inl (Or.inl ?_))
      refine List.mem_map.mpr ⟨a, List.mem_filter.mpr ⟨hmem, by simpa using hrew⟩, ?_⟩
      rw [lookupA_calc hmem]
      rfl

theorem c1_staged_hash_witness :
    ∃ b, lookupA (writeFiles ["s.css".toList] ["s.css".toList] ["s.css".toList]
        (fun _ => "body".toList) (fun b => 'h' :: b) (fun _ a => 'r' :: a)).1
        "s.css".toList = some (convert_filename "s.css".toList (('h' :: ·) b)) ∧
      WriteOp.mk (convert_filename "s.css".toList (('h' :: ·) b)) b
        ∈ (writeFiles ["s.css".toList] ["s.css".toList] ["s.css".toList]
          (fun _ => "body".toList) (fun b => 'h' :: b) (fun _ a => 'r' :: a)).2 ∧
      ("s.css".toList ∈ ["s.css".toList] → ∃ m, b = (fun (_ : AMap) a => 'r' :: a) m "s.css".toList) ∧
      ("s.css".toList ∉ ["s.css".toList] → b = (fun _ => "body".toList) "s.css".toList) :=
  c1_staged_hash ["s.css".toList] ["s.css".toList] ["s.css".toList]
    (fun _ => "body".toList) (fun b => 'h' :: b) (fun _ a => 'r' :: a)
    "s.css".toList (by decide) (by decide)

/-! ### Synchronization (`_upload_to_bucket`) -/

/-- One remote S3 operation performed by `_upload_to_bucket`. -/
inductive S3Event where
  | listKeys (pfx : Option (List Char))
  | getKey (key : List Char) (found : Bool)
  | put (key : List Char) (headers : List (List Char × List Char))
  | deleteKeys (keys : List (List Char))
deriving DecidableEq

/-- The bucket key for a staged file: `os.path.join(prefix, relpath)`
when a prefix is configured, the bare relative path otherwise. -/
def keyOf (pfx : Option (List Char)) (rel : List Char) : List Char :=
  match pfx with
  | some p => pjoin p rel
  | none => rel

/-- Python `list.remove` wrapped in `try/except`: drop the first
occurrence of `k`, or leave the list unchanged when absent. -/
def removeFirst : List (List Char) → List Char → List (List Char)
  | [], _ => []
  | x :: rest, k => if x = k then rest else x :: removeFirst rest k

/-- The headers dict built for one upload: a cache-control directive
chosen by asset-ness, plus a gzip content-encoding when the file was
compressed. -/
def uploadHeaders (isAsset isGzipped : Bool) : List (List Char × List Char) :=
  ("Cache-Control".toList,
      if isAsset then "public, max-age=31556926".toList
      else "no-cache, max-age=0".toList) ::
    (if isGzipped then [("Content-Encoding".toList, "gzip".toList)] else [])

/-- `ext in self._assets_ext` for a staged file name (line 380-381:
the extension is taken from the walk's bare file name). -/
def isAssetFile (rel : List Char) : Bool :=
  decide ((splitext (basename rel)).2 ∈ assets_ext)

/-- `ext in self._gzip_ext`. -/
def isGzipFile (rel : List Char) : Bool :=
  decide ((splitext (basename rel)).2 ∈ gzip_ext)

/-- The per-file loop of `_upload_to_bucket` over the staged relative
paths: prune the pending-delete list, query the bucket (`get_key` sees
the initial listing plus keys uploaded so far, tracked in `up`), and
upload unless the file is an asset already present under that key.
Returns the final pending-delete list and the remote operations. -/
def syncFiles (remote : List (List Char)) (pfx : Option (List Char)) (gz : Bool) :
    List (List Char) → List (List Char) → List (List Char) →
      List (List Char) × List S3Event
  | [], toDel, _ => (toDel, [])
  | rel :: rest, toDel, up =>
    let key := keyOf pfx rel
    let toDel2 := removeFirst toDel key
    let isA := isAssetFile rel
    let isGz := gz && isGzipFile rel
    let found := decide (key ∈ remote) || decide (key ∈ up)
    if !found || !isA then
      let out := syncFiles remote pfx gz rest toDel2 (key :: up)
      (out.1, S3Event.getKey key found :: S3Event.put key (uploadHeaders isA isGz) :: out.2)
    else
      let out := syncFiles remote pfx gz rest toDel2 up
      (out.1, S3Event.getKey key found :: out.2)

/-- `_upload_to_bucket`: list the bucket under the prefix, walk the
staged files, and delete the untouched keys in one bulk call at the
end. -/
def uploadToBucket (remote staged : List (List Char)) (pfx : Option (List Char))
    (gz : Bool) : List S3Event :=
  let out := syncFiles remote pfx gz staged remote []
  S3Event.listKeys pfx :: out.2 ++ [S3Event.deleteKeys out.1]

theorem syncFiles_cons (remote : List (List Char)) (pfx : Option (List Char)) (gz : Bool)
    (rel : List Char) (rest toDel up : List (List Char)) :
    syncFiles remote pfx gz (rel :: rest) toDel up =
      if !(decide (keyOf pfx rel ∈ remote) || decide (keyOf pfx rel ∈ up))
          || !isAssetFile rel then
        ((syncFiles remote pfx gz rest (removeFirst toDel (keyOf pfx rel))
            (keyOf pfx rel :: up)).1,
          S3Event.getKey (keyOf pfx rel)
              (decide (keyOf pfx rel ∈ remote) || decide (keyOf pfx rel ∈ up)) ::
            S3Event.put (keyOf pfx rel)
              (uploadHeaders (isAssetFile rel) (gz && isGzipFile rel)) ::
            (syncFiles remote pfx gz rest (removeFirst toDel (keyOf pfx rel))
              (keyOf pfx rel :: up)).2)
      else
        ((syncFiles remote pfx gz rest (removeFirst toDel (keyOf pfx rel)) up).1,
          S3Event.getKey (keyOf pfx rel)
              (decide (keyOf pfx rel ∈ remote) || decide (keyOf pfx rel ∈ up)) ::
            (syncFiles remote pfx gz rest (removeFirst toDel (keyOf pfx rel)) up).2) := rfl

theorem removeFirst_eq_filter {l : List (List Char)} {k : List Char} (h : l.Nodup) :
    removeFirst l k = l.filter (fun x => decide (x ≠ k)) := by
  induction l with
  | nil => rfl
  | cons x rest ih =>
    unfold removeFirst
    by_cases hx : x = k
    · rw [if_pos hx]
      rw [List.filter_cons_of_neg (by simpa using hx)]
      subst hx
      have : ∀ a ∈ rest, decide (a ≠ x) = true := by
        intro a ha
        have : a ≠ x := fun he => (List.nodup_cons.mp h).1 (he ▸ ha)
        simpa using this
      exact ((List.filter_eq_self).mpr this).symm
    · rw [if_neg hx, List.filter_cons_of_pos (by simpa using hx)]
      rw [ih (List.nodup_cons.mp h).2]

theorem removeFirst_mem {l : List (List Char)} {k : List Char} (h : l.Nodup) (x : List Char) :
    x ∈ removeFirst l k ↔ x ∈ l ∧ x ≠ k := by
  rw [removeFirst_eq_filter h, List.mem_filter]
  simp

theorem removeFirst_nodup {l : List (List Char)} {k : List Char} (h : l.Nodup) :
    (removeFirst l k).Nodup := by
  rw [removeFirst_eq_filter h]
  exact h.filter _

theorem syncFiles_put_form {remote : List (List Char)} {pfx : Option (List Char)} {gz : Bool} :
    ∀ {l toDel up : List (List Char)} {k : List Char} {hs : List (List Char × List Char)},
    S3Event.put k hs ∈ (syncFiles remote pfx gz l toDel up).2 →
    ∃ rel, rel ∈ l ∧ k = keyOf pfx rel ∧
      hs = uploadHeaders (isAssetFile rel) (gz && isGzipFile rel) := by
  intro l
  induction l with
  | nil =>
    intro toDel up k hs hmem
    exact absurd hmem (List.not_mem_nil _)
  | cons rel rest ih =>
    intro toDel up k hs hmem
    rw [syncFiles_cons] at hmem
    by_cases hc : (!(decide (keyOf pfx rel ∈ remote) || decide (keyOf pfx rel ∈ up))
        || !isAssetFile rel) = true
    · rw [if_pos hc] at hmem
      rcases List.mem_cons.mp hmem with he | hmem2
      · exact absurd he (by simp)
      rcases List.mem_cons.mp hmem2 with he | hmem3
      · obtain ⟨hk, hh⟩ := S3Event.put.inj he
        exact ⟨rel, List.mem_cons_self _ _, hk, hh⟩
      · obtain ⟨r, hr, hk, hh⟩ := ih hmem3
        exact ⟨r, List.mem_cons_of_mem _ hr, hk, hh⟩
    · rw [if_neg hc] at hmem
      rcases List.mem_cons.mp hmem with he | hmem2
      · exact absurd he (by simp)
      · obtain ⟨r, hr, hk, hh⟩ := ih hmem2
        exact ⟨r, List.mem_cons_of_mem _ hr, hk, hh⟩

theorem syncFiles_event_shape {remote : List (List Char)} {pfx : Option (List Char)} {gz : Bool} :
    ∀ {l toDel up : List (List Char)} {e : S3Event},
    e ∈ (syncFiles remote pfx gz l toDel up).2 →
    (∃ k f, e = S3Event.getKey k f) ∨ ∃ k hs, e = S3Event.put k hs := by
  intro l
  induction l with
  | nil =>
    intro toDel up e hmem
    exact absurd hmem (List.not_mem_nil _)
  | cons rel rest ih =>
    intro toDel up e hmem
    rw [syncFiles_cons] at hmem
    by_cases hc : (!(decide (keyOf pfx rel ∈ remote) || decide (keyOf pfx rel ∈ up))
        || !isAssetFile rel) = true
    · rw [if_pos hc] at hmem
      rcases List.mem_cons.mp hmem with he | hmem2
      · exact Or.inl ⟨_, _, he⟩
      rcases List.mem_cons.mp hmem2 with he | hmem3
      · exact Or.inr ⟨_, _, he⟩
      · exact ih hmem3
    · rw [if_neg hc] at hmem
      rcases List.mem_cons.mp hmem with he | hmem2
      · exact Or.inl ⟨_, _, he⟩
      · exact ih hmem2

theorem syncFiles_toDel {remote : List (List Char)} {pfx : Option (List Char)} {gz : Bool} :
    ∀ {l toDel up : List (List Char)}, toDel.Nodup →
    (∀ x, x ∈ (syncFiles remote pfx gz l toDel up).1 ↔
        x ∈ toDel ∧ x ∉ l.map (keyOf pfx)) ∧
      (syncFiles remote pfx gz l toDel up).1.Nodup := by
  intro l
  induction l with
  | nil =>
    intro toDel up hnd
    refine ⟨fun x => ?_, hnd⟩
    show x ∈ toDel ↔ _
    simp
  | cons rel rest ih =>
    intro toDel up hnd
    have hnd2 : (removeFirst toDel (keyOf pfx rel)).Nodup := removeFirst_nodup hnd
    rw [syncFiles_cons]
    by_cases hc : (!(decide (keyOf pfx rel ∈ remote) || decide (keyOf pfx rel ∈ up))
        || !isAssetFile rel) = true
    · rw [if_pos hc]
      obtain ⟨hmem, hnd3⟩ := @ih (removeFirst toDel (keyOf pfx rel)) (keyOf pfx rel :: up) hnd2
      refine ⟨fun x => ?_, hnd3⟩
      rw [hmem x, removeFirst_mem hnd x]
      simp only [List.map_cons, List.mem_cons]
      constructor
      · rintro ⟨⟨h1, h2⟩, h3⟩
        exact ⟨h1, fun hm => hm.elim (fun he => h2 he) h3⟩
      · rintro ⟨h1, h2⟩
        exact ⟨⟨h1, fun he => h2 (Or.inl he)⟩, fun hm => h2 (Or.inr hm)⟩
    · rw [if_neg hc]
      obtain ⟨hmem, hnd3⟩ := @ih (removeFirst toDel (keyOf pfx rel)) up hnd2
      refine ⟨fun x => ?_, hnd3⟩
      rw [hmem x, removeFirst_mem hnd x]
      simp only [List.map_cons, List.mem_cons]
      constructor
      · rintro ⟨⟨h1, h2⟩, h3⟩
        exact ⟨h1, fun hm => hm.elim (fun he => h2 he) h3⟩
      · rintro ⟨h1, h2⟩
        exact ⟨⟨h1, fun he => h2 (Or.inl he)⟩, fun hm => h2 (Or.inr hm)⟩

theorem syncFiles_put_iff {remote : List (List Char)} {pfx : Option (List Char)} {gz : Bool} :
    ∀ {l toDel up : List (List Char)}, (l.map (keyOf pfx)).Nodup →
    (∀ r ∈ l, keyOf pfx r ∉ up) →
    ∀ rel ∈ l,
      (S3Event.put (keyOf pfx rel) (uploadHeaders (isAssetFile rel) (gz && isGzipFile rel))
          ∈ (syncFiles remote pfx gz l toDel up).2 ↔
        ¬(isAssetFile rel = true ∧ keyOf pfx rel ∈ remote)) := by
  intro l
  induction l with
  | nil =>
    intro toDel up _ _ rel hrel
    exact absurd hrel (List.not_mem_nil _)
  | cons x rest ih =>
    intro toDel up hnd hup rel hrel
    have hfound : (decide (keyOf pfx x ∈ remote) || decide (keyOf pfx x ∈ up))
        = decide (keyOf pfx x ∈ remote) := by
      have : keyOf pfx x ∉ up := hup x (List.mem_cons_self _ _)
      simp [this]
    rw [syncFiles_cons]
    rcases List.mem_cons.mp hrel with he | hr
    · subst he
      by_cases hc : (!(decide (keyOf pfx rel ∈ remote) || decide (keyOf pfx rel ∈ up))
          || !isAssetFile rel) = true
      · rw [if_pos hc]
        constructor
        · intro _
          rw [hfound] at hc
          intro hcon
          simp only [Bool.or_eq_true, Bool.not_eq_true', decide_eq_false_iff_not,
            Bool.not_eq_true] at hc
          rcases hc with h | h
          · exact h hcon.2
          · rw [hcon.1] at h
            exact absurd h (by decide)
        · intro _
          exact List.mem_cons_of_mem _ (List.mem_cons_self _ _)
      · rw [if_neg hc]
        rw [hfound] at hc
        constructor
        · intro hmem
          rcases List.mem_cons.mp hmem with he2 | hmem2
          · exact absurd he2 (by simp)
          · obtain ⟨r, hr2, hk, _⟩ := syncFiles_put_form hmem2
            exfalso
            have : keyOf pfx rel ∈ rest.map (keyOf pfx) :=
              hk ▸ List.mem_map.mpr ⟨r, hr2, rfl⟩
            exact (List.nodup_cons.mp hnd).1 this
        · intro hcon
          exfalso
          apply hcon
          simp only [Bool.or_eq_true, Bool.not_eq_true', decide_eq_false_iff_not,
            Bool.not_eq_true] at hc
          push_neg at hc
          exact ⟨by simpa using hc.2, hc.1⟩
    · have hkne : keyOf pfx rel ≠ keyOf pfx x := by
        intro he2
        exact (List.nodup_cons.mp hnd).1 (he2 ▸ List.mem_map.mpr ⟨rel, hr, rfl⟩)
      have hnd2 : (rest.map (keyOf pfx)).Nodup := (List.nodup_cons.mp hnd).2
      by_cases hc : (!(decide (keyOf pfx x ∈ remote) || decide (keyOf pfx x ∈ up))
          || !isAssetFile x) = true
      · rw [if_pos hc]
        have hup2 : ∀ r ∈ rest, keyOf pfx r ∉ (keyOf pfx x :: up) := by
          intro r hr2 hm
          rcases List.mem_cons.mp hm with he2 | hm2
          · exact (List.nodup_cons.mp hnd).1 (he2 ▸ List.mem_map.mpr ⟨r, hr2, rfl⟩)
          · exact hup r (List.mem_cons_of_mem _ hr2) hm2
        rw [← ih hnd2 hup2 rel hr]
        constructor
        · intro hmem
          rcases List.mem_cons.mp hmem with he2 | hmem2
          · exact absurd he2 (by simp)
          rcases List.mem_cons.mp hmem2 with he2 | hmem3
          · exact absurd (S3Event.put.inj he2).1 hkne
          · exact hmem3
        · intro hmem
          exact List.mem_cons_of_mem _ (List.mem_cons_of_mem _ hmem)
      · rw [if_neg hc]
        have hup2 : ∀ r ∈ rest, keyOf pfx r ∉ up :=
          fun r hr2 => hup r (List.mem_cons_of_mem _ hr2)
        rw [← ih hnd2 hup2 rel hr]
        constructor
        · intro hmem
          rcases List.mem_cons.mp hmem with he2 | hmem2
          · exact absurd he2 (by simp)
          · exact hmem2
        · intro hmem
          exact List.mem_cons_of_mem _ hmem

/-- C2: with a duplicate-free remote listing and duplicate-free staged
keys, the pending-delete list ends as exactly `remote − stagedKeys`; a
staged key is uploaded iff it is not an already-present asset key, every
upload is of a staged key, and the trace is one listing, then only
get/put operations, then a single bulk delete. -/
theorem c2_sync_exact (remote staged : List (List Char)) (pfx : Option (List Char)) (gz : Bool)
    (hrn : remote.Nodup) (hsn : (staged.map (keyOf pfx)).Nodup) :
    (∀ x, x ∈ (syncFiles remote pfx gz staged remote []).1 ↔
        x ∈ remote ∧ x ∉ staged.map (keyOf pfx)) ∧
    (∀ rel ∈ staged,
      (S3Event.put (keyOf pfx rel) (uploadHeaders (isAssetFile rel) (gz && isGzipFile rel))
          ∈ (syncFiles remote pfx gz staged remote []).2 ↔
        ¬(isAssetFile rel = true ∧ keyOf pfx rel ∈ remote))) ∧
    (∀ k hs, S3Event.put k hs ∈ (syncFiles remote pfx gz staged remote []).2 →
        k ∈ staged.map (keyOf pfx)) ∧
    uploadToBucket remote staged pfx gz =
      S3Event.listKeys pfx :: (syncFiles remote pfx gz staged remote []).2 ++
        [S3Event.deleteKeys (syncFiles remote pfx gz staged remote []).1] ∧
    (∀ e ∈ (syncFiles remote pfx gz staged remote []).2,
      (∃ k f, e = S3Event.getKey k f) ∨ ∃ k h2, e = S3Event.put k h2) := by
  refine ⟨(syncFiles_toDel hrn).1, ?_, ?_, rfl, fun e he => syncFiles_event_shape he⟩
  · intro rel hrel
    exact syncFiles_put_iff hsn (fun r _ => List.not_mem_nil _) rel hrel
  · intro k hs hmem
    obtain ⟨r, hr, hk, _⟩ := syncFiles_put_form hmem
    exact hk ▸ List.mem_map.mpr ⟨r, hr, rfl⟩

theorem c2_sync_exact_witness :
    (∀ x, x ∈ (syncFiles ["old.txt".toList, "a.css".toList] none true
        ["a.css".toList, "b.html".toList] ["old.txt".toList, "a.css".toList] []).1 ↔
        x ∈ ["old.txt".toList, "a.css".toList] ∧
          x ∉ ["a.css".toList, "b.html".toList].map (keyOf none)) ∧
    (∀ rel ∈ ["a.css".toList, "b.html".toList],
      (S3Event.put (keyOf none rel) (uploadHeaders (isAssetFile rel) (true && isGzipFile rel))
          ∈ (syncFiles ["old.txt".toList, "a.css".toList] none true
            ["a.css".toList, "b.html".toList] ["old.txt".toList, "a.css".toList] []).2 ↔
        ¬(isAssetFile rel = true ∧ keyOf none rel ∈ ["old.txt".toList, "a.css".toList]))) ∧
    (∀ k hs, S3Event.put k hs ∈ (syncFiles ["old.txt".toList, "a.css".toList] none true
        ["a.css".toList, "b.html".toList] ["old.txt".toList, "a.css".toList] []).2 →
        k ∈ ["a.css".toList, "b.html".toList].map (keyOf none)) ∧
    uploadToBucket ["old.txt".toList, "a.css".toList] ["a.css".toList, "b.html".toList]
        none true =
      S3Event.listKeys none :: (syncFiles ["old.txt".toList, "a.css".toList] none true
          ["a.css".toList, "b.html".toList] ["old.txt".toList, "a.css".toList] []).2 ++
        [S3Event.deleteKeys (syncFiles ["old.txt".toList, "a.css".toList] none true
          ["a.css".toList, "b.html".toList] ["old.txt".toList, "a.css".toList] []).1] ∧
    (∀ e ∈ (syncFiles ["old.txt".toList, "a.css".toList] none true
        ["a.css".toList, "b.html".toList] ["old.txt".toList, "a.css".toList] []).2,
      (∃ k f, e = S3Event.getKey k f) ∨ ∃ k h2, e = S3Event.put k h2) :=
  c2_sync_exact ["old.txt".toList, "a.css".toList] ["a.css".toList, "b.html".toList]
    none true (by decide) (by decide)

theorem uploadHeaders_facts (a g : Bool) :
    ((("Cache-Control".toList, "public, max-age=31556926".toList) ∈ uploadHeaders a g) ↔
      a = true) ∧
    ((("Cache-Control".toList, "no-cache, max-age=0".toList) ∈ uploadHeaders a g) ↔
      a = false) ∧
    ((("Content-Encoding".toList, "gzip".toList) ∈ uploadHeaders a g) ↔ g = true) := by
  cases a <;> cases g <;> refine ⟨?_, ?_, ?_⟩ <;> decide

/-- C6: every uploaded object's header map holds the long-lived public
cache-control directive iff the staged file is an asset, the no-cache
directive iff it is not, and the gzip content-encoding iff compression
was enabled and the extension is compressible. -/
theorem c6_upload_headers (remote staged : List (List Char)) (pfx : Option (List Char))
    (gz : Bool) (k : List Char) (hs : List (List Char × List Char))
    (hput : S3Event.put k hs ∈ uploadToBucket remote staged pfx gz) :
    ∃ rel, rel ∈ staged ∧ k = keyOf pfx rel ∧
      ((("Cache-Control".toList, "public, max-age=31556926".toList) ∈ hs) ↔
        isAssetFile rel = true) ∧
      ((("Cache-Control".toList, "no-cache, max-age=0".toList) ∈ hs) ↔
        isAssetFile rel = false) ∧
      ((("Content-Encoding".toList, "gzip".toList) ∈ hs) ↔
        (gz = true ∧ isGzipFile rel = true)) := by
  have hmem : S3Event.put k hs ∈ (syncFiles remote pfx gz staged remote []).2 := by
    rcases List.mem_append.mp hput with h2 | h4
    · rcases List.mem_cons.mp h2 with he | h3
      · exact absurd he (by simp)
      · exact h3
    · exact absurd h4 (by simp)
  obtain ⟨rel, hrel, hk, hh⟩ := syncFiles_put_form hmem
  refine ⟨rel, hrel, hk, ?_⟩
  rw [hh]
  obtain ⟨f1, f2, f3⟩ := uploadHeaders_facts (isAssetFile rel) (gz && isGzipFile rel)
  exact ⟨f1, f2, by rw [f3, Bool.and_eq_true]⟩

theorem c6_upload_headers_witness :
    ∃ rel, rel ∈ ["a.css".toList] ∧ "a.css".toList = keyOf none rel ∧
      ((("Cache-Control".toList, "public, max-age=31556926".toList) ∈
        uploadHeaders true false) ↔ isAssetFile rel = true) ∧
      ((("Cache-Control".toList, "no-cache, max-age=0".toList) ∈
        uploadHeaders true false) ↔ isAssetFile rel = false) ∧
      ((("Content-Encoding".toList, "gzip".toList) ∈ uploadHeaders true false) ↔
        (false = true ∧ isGzipFile rel = true)) :=
  c6_upload_headers [] ["a.css".toList] none false "a.css".toList
    (uploadHeaders true false) (by decide)

/-! ### The pipeline (`run`) -/

/-- One phase of `Optimizer.run`, with the model output each phase
produces; remote operations are wrapped in `s3`. -/
inductive RunEvent where
  | indexed (r : IndexResult)
  | fingerprinted (am : AMap)
  | wroteDirs (ds : List (List Char))
  | wroteFiles (ops : List WriteOp)
  | gzipped
  | s3 (e : S3Event)

/-- Whether a pipeline event is a remote (S3) operation. -/
def isRemoteEvent : RunEvent → Bool
  | RunEvent.s3 _ => true
  | _ => false

/-- `Optimizer.run`: index, fingerprint, write dirs and files, gzip when
enabled, and synchronize with the bucket unless `skip_s3_upload` was
set. `staged` is the list of relative paths found by walking the output
dir during upload. -/
def runModel (skip gz : Bool) (tree : FSList) (exclude : List (List Char))
    (src H : List Char → List Char) (R : AMap → List Char → List Char)
    (remote staged : List (List Char)) (pfx : Option (List Char)) : List RunEvent :=
  let idx := indexSourceDir tree exclude
  let wf := writeFiles idx.assets idx.rewritables idx.files src H R
  ([RunEvent.indexed idx,
    RunEvent.fingerprinted (calcFingerprints idx.assets src H),
    RunEvent.wroteDirs idx.subdirs,
    RunEvent.wroteFiles wf.2] ++ (if gz then [RunEvent.gzipped] else [])) ++
    (if skip then [] else (uploadToBucket remote staged pfx gz).map RunEvent.s3)

/-- C8: with `skip_s3_upload` set, the run still performs indexing,
fingerprinting, dir and file staging and optional compression — the
trace is exactly those phases with their staged outputs — and contains
no remote operation of any kind. -/
theorem c8_skip_upload (gz : Bool) (tree : FSList) (exclude : List (List Char))
    (src H : List Char → List Char) (R : AMap → List Char → List Char)
    (remote staged : List (List Char)) (pfx : Option (List Char)) :
    runModel true gz tree exclude src H R remote staged pfx =
      [RunEvent.indexed (indexSourceDir tree exclude),
        RunEvent.fingerprinted (calcFingerprints (indexSourceDir tree exclude).assets src H),
        RunEvent.wroteDirs (indexSourceDir tree exclude).subdirs,
        RunEvent.wroteFiles (writeFiles (indexSourceDir tree exclude).assets
          (indexSourceDir tree exclude).rewritables (indexSourceDir tree exclude).files
          src H R).2] ++ (if gz then [RunEvent.gzipped] else []) ∧
    ∀ e ∈ runModel true gz tree exclude src H R remote staged pfx,
      isRemoteEvent e = false := by
  constructor
  · show _ ++ (if true then [] else _) = _
    rw [if_pos rfl, List.append_nil]
  · intro e he
    have he2 : e ∈ ([RunEvent.indexed (indexSourceDir tree exclude),
        RunEvent.fingerprinted (calcFingerprints (indexSourceDir tree exclude).assets src H),
        RunEvent.wroteDirs (indexSourceDir tree exclude).subdirs,
        RunEvent.wroteFiles (writeFiles (indexSourceDir tree exclude).assets
          (indexSourceDir tree exclude).rewritables (indexSourceDir tree exclude).files
          src H R).2] ++ (if gz then [RunEvent.gzipped] else [])) ++ [] := he
    rw [List.append_nil] at he2
    rcases List.mem_append.mp he2 with h1 | h2
    · simp only [List.mem_cons, List.not_mem_nil, or_false] at h1
      rcases h1 with rfl | rfl | rfl | rfl <;> rfl
    · by_cases hg : gz = true
      · rw [if_pos hg] at h2
        rcases List.mem_cons.mp h2 with rfl | h3
        · rfl
        · exact absurd h3 (List.not_mem_nil _)
      · rw [if_neg hg] at h2
        exact absurd h2 (List.not_mem_nil _)
